import Mathlib

/-!
Formal model of `kenken.py` (KenkenSolverGUI).

The Python source is shallowly embedded: cells are pairs of integers,
cages (cliques) are triples of a member list, an operator string and an
integer target.  Python's arbitrary-precision integers are modelled by `ℤ`.
The real-valued results of Python's `/` are modelled exactly as formal
fractions (`Frac`, a numerator/denominator pair combined by the usual
field formulas and never reduced); `Frac.toRat` interprets a fraction as
the rational number it denotes, so equalities against the integer target
can be read back in `ℚ`.  Functions that can raise a Python exception
(`reduce` over an empty sequence or with a `None` operation, `exit`
inside `validate`) return `Option`/`Except` values with `none` or
`Except.error` marking the raised exception.
-/

/-- A board position `(x, y)`, `x` the column and `y` the row. -/
abbrev Cell : Type := ℤ × ℤ

/-- A clique (cage): member cells, operator string, target. -/
abbrev Clique : Type := List Cell × String × ℤ

/-- An exact fraction: the value `num / den`.  Integers embed as `⟨v, 1⟩`;
the arithmetic below implements Python's `+`, `-`, `*`, `/` on numbers
exactly (the denominator stays nonzero in every reachable computation,
since all divisors come from `[1..size]`). -/
structure Frac where
  num : ℤ
  den : ℤ
deriving DecidableEq, Repr

/-- The rational number a fraction denotes. -/
def Frac.toRat (q : Frac) : ℚ := (q.num : ℚ) / (q.den : ℚ)

/-- Embed a Python integer into the number model. -/
def Frac.ofInt (v : ℤ) : Frac := ⟨v, 1⟩

def Frac.add (a b : Frac) : Frac := ⟨a.num * b.den + b.num * a.den, a.den * b.den⟩

def Frac.sub (a b : Frac) : Frac := ⟨a.num * b.den - b.num * a.den, a.den * b.den⟩

def Frac.mul (a b : Frac) : Frac := ⟨a.num * b.num, a.den * b.den⟩

def Frac.div (a b : Frac) : Frac := ⟨a.num * b.den, a.den * b.num⟩

/-- Python `==` between a number and an integer target (cross
multiplication; for a nonzero denominator this is exact equality of the
denoted values). -/
def Frac.eqInt (q : Frac) (t : ℤ) : Bool := q.num == t * q.den

/-- Python `q > 0` for a number (sign of the denoted value). -/
def Frac.isPos (q : Frac) : Bool := decide (0 < q.num * q.den)

/-- Python `int(q)`: truncation of the denoted value toward zero. -/
def pyInt (q : Frac) : ℤ := q.num.tdiv q.den

/-- `operation(operator)` from `kenken.py`: maps an operator symbol to a
binary function, `None` (i.e. `none`) for any other string. -/
def operation (operator : String) : Option (Frac → Frac → Frac) :=
  if operator = "+" then some (fun a b => Frac.add a b)
  else if operator = "-" then some (fun a b => Frac.sub a b)
  else if operator = "*" then some (fun a b => Frac.mul a b)
  else if operator = "/" then some (fun a b => Frac.div a b)
  else none

/-- `adjacent(xy1, xy2)`: the two cells differ by exactly 1 in exactly one
coordinate. -/
def adjacent (xy1 xy2 : Cell) : Bool :=
  let dx := xy1.1 - xy2.1
  let dy := xy1.2 - xy2.2
  (dx == 0 && dy.natAbs == 1) || (dy == 0 && dx.natAbs == 1)

/-- `RowXorCol(xy1, xy2)`: same row or same column but not both
(Python's `!=` on two booleans). -/
def RowXorCol (xy1 xy2 : Cell) : Bool :=
  (xy1.1 == xy2.1) != (xy1.2 == xy2.2)

/-- `conflicting(A, a, B, b)`: some member of `A` and some member of `B`
are row-xor-column related and carry equal values in the assignments
`a`, `b`.  (Python indexes `a[i]`, `b[j]`; the embedding uses `getD`,
which agrees whenever `a`, `b` are at least as long as `A`, `B`.) -/
def conflicting (A : List Cell) (a : List ℤ) (B : List Cell) (b : List ℤ) : Bool :=
  (List.range A.length).any fun i =>
    (List.range B.length).any fun j =>
      RowXorCol (A.getD i (0, 0)) (B.getD j (0, 0)) && (a.getD i 0 == b.getD j 0)

/-- Python `reduce(op, values)`: `none` when `values` is empty or when the
operation is `None` and at least one application is needed (both raise a
`TypeError`); otherwise the left fold of the operation over the values. -/
def pyReduce (op : Option (Frac → Frac → Frac)) : List ℤ → Option Frac
  | [] => none
  | [x] => some (Frac.ofInt x)
  | x :: y :: rest =>
    match op with
    | none => none
    | some f => some ((y :: rest).foldl (fun acc v => f acc (Frac.ofInt v)) (Frac.ofInt x))

/-- Helper for `pyPermutations`, structurally recursive on a fuel bound:
for each index in order, that element becomes the head, followed by the
permutations of the remaining list. -/
def pyPermsAux : ℕ → List ℤ → List (List ℤ)
  | _, [] => [[]]
  | 0, _ :: _ => []
  | fuel + 1, l =>
    (List.range l.length).flatMap fun i =>
      (pyPermsAux fuel (l.eraseIdx i)).map fun t => l.getD i 0 :: t

/-- `itertools.permutations(values)` (all orderings, positions treated as
distinct), in itertools' enumeration order. -/
def pyPermutations (l : List ℤ) : List (List ℤ) := pyPermsAux l.length l

/-- `satisfies(values, operation, target)`: some permutation of the values
folds to the target.  `none` models the `TypeError` raised by `reduce`
(empty values, or a `None` operation with two or more values: the very
first permutation then raises, before any comparison succeeds). -/
def satisfies (values : List ℤ) (op : Option (Frac → Frac → Frac)) (target : ℤ) : Option Bool :=
  if values.isEmpty || (op.isNone && decide (2 ≤ values.length)) then none
  else some (pyPermutations values |>.any fun p =>
    match pyReduce op p with
    | some r => Frac.eqInt r target
    | none => false)

/-- `range(1, size+1)` as a list of integers. -/
def oneTo (size : ℕ) : List ℤ := (List.range size).map fun k : ℕ => (k : ℤ) + 1

/-- `itertools.product(l, repeat=n)` in the same enumeration order. -/
def pyProduct (l : List ℤ) : ℕ → List (List ℤ)
  | 0 => [[]]
  | n + 1 => l.flatMap fun x => (pyProduct l n).map fun t => x :: t

/-- Python's `filter` with a possibly-raising predicate: the first `none`
aborts the whole computation. -/
def filterOpt (p : α → Option Bool) : List α → Option (List α)
  | [] => some []
  | x :: xs =>
    match p x with
    | none => none
    | some b => (filterOpt p xs).map fun r => if b then x :: r else r

/-- The `qualifies` lambda inside `gdomains`: `not conflicting(...) and
satisfies(...)` with Python's short-circuit `and`. -/
def qualifies (members : List Cell) (operator : String) (target : ℤ)
    (values : List ℤ) : Option Bool :=
  if conflicting members values members values then some false
  else satisfies values (operation operator) target

/-- The domain `gdomains` computes for one clique: the filtered Cartesian
product of `[1..size]` over the clique's length. -/
def cliqueDomain (size : ℕ) (c : Clique) : Option (List (List ℤ)) :=
  filterOpt (qualifies c.1 c.2.1 c.2.2) (pyProduct (oneTo size) c.1.length)

/-- `gdomains(size, cliques)` as the list of `(members, domain)` pairs in
clique order; `none` if any clique's filtering raises. -/
def gdomains (size : ℕ) : List Clique → Option (List (List Cell × List (List ℤ)))
  | [] => some []
  | c :: rest =>
    match cliqueDomain size c with
    | none => none
    | some dom =>
      match gdomains size rest with
      | none => none
      | some ds => some ((c.1, dom) :: ds)

/-- `Kenken.constraint(self, A, a, B, b)`: bumps the check counter and
returns `A == B or not conflicting(A, a, B, b)`. -/
def Kenken.constraint (checks : ℕ) (A : List Cell) (a : List ℤ)
    (B : List Cell) (b : List ℤ) : ℕ × Bool :=
  (checks + 1, (A == B) || !(conflicting A a B b))

-- Sanity checks on small inputs.
example : pyProduct (oneTo 2) 2 = [[1, 1], [1, 2], [2, 1], [2, 2]] := by decide
example : conflicting [(1, 1), (2, 1)] [3, 3] [(1, 1), (2, 1)] [3, 3] = true := by decide
example : conflicting [(1, 1), (2, 2)] [3, 3] [(1, 1), (2, 2)] [3, 3] = false := by decide
example : satisfies [1, 2] (operation "-") 1 = some true := by decide
example : satisfies [1, 2] (operation ".") 1 = none := by decide
example : satisfies [2, 4] (operation "/") 2 = some true := by decide
example : satisfies [3] (operation ".") 3 = some true := by decide
example : cliqueDomain 2 ([(1, 1), (2, 1)], "-", 1) = some [[1, 2], [2, 1]] := by decide

/-! ### Basic characterizations -/

theorem RowXorCol_iff (u v : Cell) :
    RowXorCol u v = true ↔ Xor' (u.1 = v.1) (u.2 = v.2) := by
  by_cases h1 : u.1 = v.1 <;> by_cases h2 : u.2 = v.2 <;>
    simp [RowXorCol, Xor', h1, h2]

theorem conflicting_eq_true_iff (A B : List Cell) (a b : List ℤ) :
    conflicting A a B b = true ↔
      ∃ i < A.length, ∃ j < B.length,
        RowXorCol (A.getD i (0, 0)) (B.getD j (0, 0)) = true ∧ a.getD i 0 = b.getD j 0 := by
  simp [conflicting, List.any_eq_true, List.mem_range, Bool.and_eq_true, beq_iff_eq]

theorem oneTo_mem (n : ℕ) (v : ℤ) : v ∈ oneTo n ↔ 1 ≤ v ∧ v ≤ n := by
  constructor
  · intro hv
    obtain ⟨k, hk, rfl⟩ := List.mem_map.1 hv
    have hk' : k < n := List.mem_range.1 hk
    omega
  · intro h
    exact List.mem_map.2 ⟨(v - 1).toNat, List.mem_range.2 (by omega), by omega⟩

theorem oneTo_nodup (n : ℕ) : (oneTo n).Nodup := by
  unfold oneTo
  have hinj : Function.Injective (fun k : ℕ => (k : ℤ) + 1) := by
    intro x y h
    simpa using h
  exact List.Nodup.map hinj (List.nodup_range n)

theorem pyProduct_mem (l : List ℤ) (n : ℕ) (t : List ℤ) :
    t ∈ pyProduct l n ↔ t.length = n ∧ ∀ v ∈ t, v ∈ l := by
  induction n generalizing t with
  | zero =>
    simp only [pyProduct, List.mem_singleton]
    constructor
    · rintro rfl; simp
    · rintro ⟨h, -⟩; exact List.eq_nil_of_length_eq_zero h
  | succ n ih =>
    simp only [pyProduct, List.mem_flatMap, List.mem_map]
    constructor
    · rintro ⟨x, hx, t', ht', rfl⟩
      obtain ⟨hlen, hmem⟩ := (ih t').1 ht'
      refine ⟨by simp [hlen], ?_⟩
      intro v hv
      rcases List.mem_cons.1 hv with rfl | hv
      · exact hx
      · exact hmem v hv
    · rintro ⟨hlen, hmem⟩
      match t with
      | x :: t' =>
        refine ⟨x, hmem x (by simp), t', ?_, rfl⟩
        exact (ih t').2 ⟨by simpa using hlen, fun v hv => hmem v (by simp [hv])⟩

theorem perm_cons_eraseIdx {α : Type} [DecidableEq α] (l : List α) (d : α) (i : ℕ)
    (hi : i < l.length) : l.Perm (l.getD i d :: l.eraseIdx i) := by
  rw [List.getD_eq_getElem l d hi]
  exact (List.perm_cons_erase (List.getElem_mem hi)).trans
    (List.Perm.cons _ (List.erase_getElem hi))

theorem pyPermsAux_mem (fuel : ℕ) (l p : List ℤ) (hfuel : l.length ≤ fuel) :
    p ∈ pyPermsAux fuel l ↔ p.Perm l := by
  induction fuel generalizing l p with
  | zero =>
    match l with
    | [] => simp [pyPermsAux, List.perm_nil]
    | _ :: _ => simp at hfuel
  | succ fuel ih =>
    match l with
    | [] => simp [pyPermsAux, List.perm_nil]
    | x :: l' =>
      simp only [pyPermsAux, List.mem_flatMap, List.mem_map, List.mem_range]
      constructor
      · rintro ⟨i, hi, t, ht, rfl⟩
        have hlen : ((x :: l').eraseIdx i).length ≤ fuel := by
          have hd := List.length_eraseIdx_add_one hi
          simp only [List.length_cons] at hfuel hd
          omega
        have hperm := (ih _ t hlen).1 ht
        exact (List.Perm.cons _ hperm).trans (perm_cons_eraseIdx _ 0 i hi).symm
      · intro hperm
        match p with
        | [] =>
          have := hperm.length_eq
          simp at this
        | h :: t =>
          have hmem : h ∈ x :: l' := hperm.mem_iff.1 (by simp)
          obtain ⟨i, hi, hget⟩ := List.getElem_of_mem hmem
          refine ⟨i, hi, t, ?_, by rw [List.getD_eq_getElem _ 0 hi, hget]⟩
          have hlen : ((x :: l').eraseIdx i).length ≤ fuel := by
            have hd := List.length_eraseIdx_add_one hi
            simp only [List.length_cons] at hfuel hd
            omega
          refine (ih _ t hlen).2 ?_
          have h1 : (h :: t).Perm (h :: (x :: l').eraseIdx i) := by
            refine hperm.trans ?_
            have h2 := perm_cons_eraseIdx (x :: l') 0 i hi
            rwa [List.getD_eq_getElem _ 0 hi, hget] at h2
          exact (List.perm_cons h).1 h1

theorem pyPermutations_mem (l p : List ℤ) : p ∈ pyPermutations l ↔ p.Perm l :=
  pyPermsAux_mem l.length l p le_rfl

theorem self_mem_pyPermutations (l : List ℤ) : l ∈ pyPermutations l :=
  (pyPermutations_mem l l).2 (List.Perm.refl l)

/-! ### Claim theorems: the constraint predicate -/

/-- C2: `conflicting(A, a, B, b)` (for tuples matching the cages'
lengths) is true iff some positions `i` in `A` and `j` in `B` name cells
that are in the same row xor the same column (diagonal, identical or
unrelated cells never contribute) and whose assigned values `a[i]`,
`b[j]` are equal. -/
theorem conflicting_spec (A B : List Cell) (a b : List ℤ)
    (ha : a.length = A.length) (hb : b.length = B.length) :
    conflicting A a B b = true ↔
      ∃ i < A.length, ∃ j < B.length,
        Xor' ((A.getD i (0, 0)).1 = (B.getD j (0, 0)).1)
             ((A.getD i (0, 0)).2 = (B.getD j (0, 0)).2) ∧
        a.getD i 0 = b.getD j 0 := by
  rw [conflicting_eq_true_iff]
  constructor
  · rintro ⟨i, hi, j, hj, hxor, hval⟩
    exact ⟨i, hi, j, hj, (RowXorCol_iff _ _).1 hxor, hval⟩
  · rintro ⟨i, hi, j, hj, hxor, hval⟩
    exact ⟨i, hi, j, hj, (RowXorCol_iff _ _).2 hxor, hval⟩

theorem conflicting_spec_witness :
    (([(3, 5)] : List Cell).length = ([(1, 1), (3, 1)] : List Cell).length → False) ∨
    ((([3, 7] : List ℤ).length = ([(1, 1), (3, 1)] : List Cell).length) ∧
      (([7] : List ℤ).length = ([(3, 5)] : List Cell).length) ∧
      (conflicting [(1, 1), (3, 1)] [3, 7] [(3, 5)] [7] = true ↔
        ∃ i < ([(1, 1), (3, 1)] : List Cell).length, ∃ j < ([(3, 5)] : List Cell).length,
          Xor' ((([(1, 1), (3, 1)] : List Cell).getD i (0, 0)).1 =
                (([(3, 5)] : List Cell).getD j (0, 0)).1)
               ((([(1, 1), (3, 1)] : List Cell).getD i (0, 0)).2 =
                (([(3, 5)] : List Cell).getD j (0, 0)).2) ∧
          ([3, 7] : List ℤ).getD i 0 = ([7] : List ℤ).getD j 0)) :=
  Or.inr ⟨by decide, by decide,
    conflicting_spec [(1, 1), (3, 1)] [(3, 5)] [3, 7] [7] (by decide) (by decide)⟩

/-- C10: the search-time constraint predicate of the Kenken model returns
`True` whenever its two variable arguments are the same cage, for any
tuples and any current check counter. -/
theorem constraint_same_cage (checks : ℕ) (A : List Cell) (a b : List ℤ) :
    (Kenken.constraint checks A a A b).2 = true := by
  simp [Kenken.constraint]

/-! ### Filtering and satisfiability lemmas -/

theorem filterOpt_some {p : α → Option Bool} {l r : List α}
    (h : filterOpt p l = some r) (z : α) : z ∈ r ↔ z ∈ l ∧ p z = some true := by
  induction l generalizing r with
  | nil =>
    simp only [filterOpt, Option.some.injEq] at h
    subst h
    simp
  | cons y ys ih =>
    simp only [filterOpt] at h
    cases hp : p y with
    | none => rw [hp] at h; simp at h
    | some b =>
      rw [hp] at h
      cases hrec : filterOpt p ys with
      | none => rw [hrec] at h; simp at h
      | some r' =>
        rw [hrec] at h
        simp only [Option.map_some', Option.some.injEq] at h
        subst h
        have hys := ih hrec
        cases b with
        | true =>
          rw [if_pos rfl]
          constructor
          · intro hz
            rcases List.mem_cons.1 hz with rfl | hz'
            · exact ⟨List.mem_cons_self _ _, hp⟩
            · obtain ⟨h1, h2⟩ := hys.1 hz'
              exact ⟨List.mem_cons_of_mem _ h1, h2⟩
          · rintro ⟨h1, h2⟩
            rcases List.mem_cons.1 h1 with rfl | h1'
            · exact List.mem_cons_self _ _
            · exact List.mem_cons_of_mem _ (hys.2 ⟨h1', h2⟩)
        | false =>
          rw [if_neg (by simp)]
          rw [hys]
          constructor
          · rintro ⟨h1, h2⟩
            exact ⟨List.mem_cons_of_mem _ h1, h2⟩
          · rintro ⟨h1, h2⟩
            rcases List.mem_cons.1 h1 with rfl | h1'
            · rw [hp] at h2
              simp at h2
            · exact ⟨h1', h2⟩

theorem filterOpt_of_all_some {p : α → Option Bool} {q : α → Bool} {l : List α}
    (h : ∀ x ∈ l, p x = some (q x)) : filterOpt p l = some (l.filter q) := by
  induction l with
  | nil => simp [filterOpt]
  | cons x xs ih =>
    have hx := h x (by simp)
    simp only [filterOpt, hx, ih fun y hy => h y (by simp [hy]), Option.map_some',
      List.filter_cons]

theorem satisfies_eq_some_true {values : List ℤ} {op : Option (Frac → Frac → Frac)} {target : ℤ}
    (h : satisfies values op target = some true) :
    ∃ p, p.Perm values ∧ ∃ r, pyReduce op p = some r ∧ Frac.eqInt r target = true := by
  unfold satisfies at h
  split at h
  · simp at h
  · simp only [Option.some.injEq, List.any_eq_true] at h
    obtain ⟨p, hp, hmatch⟩ := h
    refine ⟨p, (pyPermutations_mem values p).1 hp, ?_⟩
    cases hr : pyReduce op p with
    | none => rw [hr] at hmatch; simp at hmatch
    | some r => rw [hr] at hmatch; exact ⟨r, rfl, hmatch⟩

theorem operation_cases (s : String) :
    operation s = none ∨ operation s = some (fun a b => Frac.add a b) ∨
    operation s = some (fun a b => Frac.sub a b) ∨
    operation s = some (fun a b => Frac.mul a b) ∨
    operation s = some (fun a b => Frac.div a b) := by
  unfold operation
  split_ifs <;> simp

theorem op_step_den {s : String} {f : Frac → Frac → Frac} (hop : operation s = some f)
    (a : Frac) (v : ℤ) (ha : 0 < a.den) (hv : 0 < v) : 0 < (f a (Frac.ofInt v)).den := by
  rcases operation_cases s with h | h | h | h | h
  · rw [h] at hop
    simp at hop
  · rw [h] at hop
    injection hop with hf
    subst hf
    simpa [Frac.add, Frac.ofInt] using ha
  · rw [h] at hop
    injection hop with hf
    subst hf
    simpa [Frac.sub, Frac.ofInt] using ha
  · rw [h] at hop
    injection hop with hf
    subst hf
    simpa [Frac.mul, Frac.ofInt] using ha
  · rw [h] at hop
    injection hop with hf
    subst hf
    exact mul_pos ha hv

theorem foldl_den_pos {s : String} {f : Frac → Frac → Frac} (hop : operation s = some f)
    (l : List ℤ) (a : Frac) (ha : 0 < a.den) (hl : ∀ v ∈ l, 0 < v) :
    0 < (l.foldl (fun acc v => f acc (Frac.ofInt v)) a).den := by
  induction l generalizing a with
  | nil => exact ha
  | cons x xs ih =>
    simp only [List.foldl_cons]
    exact ih _ (op_step_den hop a x ha (hl x (by simp))) fun v hv => hl v (by simp [hv])

theorem pyReduce_den_pos {s : String} {values : List ℤ} {r : Frac}
    (hv : ∀ v ∈ values, 0 < v) (h : pyReduce (operation s) values = some r) : 0 < r.den := by
  match values with
  | [] => simp [pyReduce] at h
  | [x] =>
    simp only [pyReduce, Option.some.injEq] at h
    subst h
    simp [Frac.ofInt]
  | x :: y :: rest =>
    simp only [pyReduce] at h
    cases hop : operation s with
    | none => rw [hop] at h; simp at h
    | some f =>
      rw [hop] at h
      simp only [Option.some.injEq] at h
      subst h
      refine foldl_den_pos hop (y :: rest) (Frac.ofInt x) (by simp [Frac.ofInt]) ?_
      intro v hvmem
      exact hv v (by simp [List.mem_cons] at hvmem ⊢; tauto)

theorem eqInt_iff_toRat {r : Frac} {t : ℤ} (h : r.den ≠ 0) :
    Frac.eqInt r t = true ↔ Frac.toRat r = (t : ℚ) := by
  simp only [Frac.eqInt, beq_iff_eq, Frac.toRat]
  rw [div_eq_iff (by exact_mod_cast h)]
  constructor
  · intro heq
    exact_mod_cast congrArg (fun z : ℤ => (z : ℚ)) heq
  · intro heq
    exact_mod_cast heq

theorem gdomains_eq {size : ℕ} {cliques : List Clique}
    {ds : List (List Cell × List (List ℤ))} (h : gdomains size cliques = some ds) :
    ds.length = cliques.length ∧
      ∀ i (hi : i < cliques.length) (hd : i < ds.length),
        ∃ dom, cliqueDomain size (cliques.get ⟨i, hi⟩) = some dom ∧
          ds.get ⟨i, hd⟩ = ((cliques.get ⟨i, hi⟩).1, dom) := by
  induction cliques generalizing ds with
  | nil =>
    simp only [gdomains, Option.some.injEq] at h
    subst h
    exact ⟨rfl, fun i hi => by simp at hi⟩
  | cons c rest ih =>
    simp only [gdomains] at h
    cases hdom : cliqueDomain size c with
    | none => rw [hdom] at h; simp at h
    | some dom =>
      rw [hdom] at h
      cases hrest : gdomains size rest with
      | none => rw [hrest] at h; simp at h
      | some ds' =>
        rw [hrest] at h
        simp only [Option.some.injEq] at h
        subst h
        obtain ⟨hlen, hget⟩ := ih hrest
        refine ⟨by simp [hlen], ?_⟩
        intro i hi hd
        match i with
        | 0 => exact ⟨dom, hdom, rfl⟩
        | i + 1 =>
          exact hget i (by simpa using hi) (by simpa using hd)

/-! ### Claim theorem: domain soundness -/

/-- C1: for every size `N ≥ 1`, cage list and cage `(members, op, target)`
in it, every tuple `t` retained in the domain computed by `gdomains`
satisfies both filters: `conflicting(members, t, members, t)` is false,
and some permutation of `t`'s values left-folds under the cage's operator
to a number that denotes exactly the target. -/
theorem gdomains_sound (size : ℕ) (hsize : 1 ≤ size) (cliques : List Clique)
    (ds : List (List Cell × List (List ℤ))) (h : gdomains size cliques = some ds)
    (i : ℕ) (hi : i < cliques.length) (hd : i < ds.length)
    (members : List Cell) (op : String) (target : ℤ)
    (hc : cliques.get ⟨i, hi⟩ = (members, op, target))
    (t : List ℤ) (ht : t ∈ (ds.get ⟨i, hd⟩).2) :
    conflicting members t members t = false ∧
      ∃ p, p.Perm t ∧ ∃ r, pyReduce (operation op) p = some r ∧
        r.den ≠ 0 ∧ Frac.toRat r = (target : ℚ) := by
  obtain ⟨-, hget⟩ := gdomains_eq h
  obtain ⟨dom, hdom, hds⟩ := hget i hi hd
  rw [hc] at hdom hds
  rw [hds] at ht
  have hchar := (filterOpt_some hdom t).1 ht
  obtain ⟨htprod, htq⟩ := hchar
  have hval : ∀ v ∈ t, 0 < v := by
    intro v hv
    have := ((pyProduct_mem _ _ t).1 htprod).2 v hv
    have := (oneTo_mem size v).1 this
    omega
  unfold qualifies at htq
  cases hconf : conflicting members t members t with
  | true => rw [hconf] at htq; simp at htq
  | false =>
    rw [hconf] at htq
    simp only [Bool.false_eq_true, if_false] at htq
    obtain ⟨p, hperm, r, hr, heq⟩ := satisfies_eq_some_true htq
    have hden : 0 < r.den := by
      refine pyReduce_den_pos (s := op) ?_ hr
      intro v hv
      exact hval v (hperm.mem_iff.1 hv)
    exact ⟨rfl, p, hperm, r, hr, by omega,
      (eqInt_iff_toRat (by omega)).1 heq⟩

theorem gdomains_sound_witness :
    gdomains 2 [([(1, 1), (2, 1)], "-", 1)] =
      some [([(1, 1), (2, 1)], [[1, 2], [2, 1]])] ∧
    (conflicting [(1, 1), (2, 1)] [2, 1] [(1, 1), (2, 1)] [2, 1] = false ∧
      ∃ p, p.Perm [2, 1] ∧ ∃ r, pyReduce (operation "-") p = some r ∧
        r.den ≠ 0 ∧ Frac.toRat r = ((1 : ℤ) : ℚ)) :=
  ⟨by decide,
    gdomains_sound 2 (by decide) [([(1, 1), (2, 1)], "-", 1)]
      [([(1, 1), (2, 1)], [[1, 2], [2, 1]])] (by decide)
      0 (by decide) (by decide) [(1, 1), (2, 1)] "-" 1 rfl [2, 1] (by decide)⟩

/-! ### Single-cell cage domains -/

theorem flatMap_singleton_eq_map (l : List ℤ) :
    (l.flatMap fun x => [[x]]) = l.map fun x => [x] := by
  induction l with
  | nil => rfl
  | cons x xs ih =>
    simp only [List.flatMap_cons, List.map_cons, ih]
    rfl

theorem pyProduct_one (l : List ℤ) : pyProduct l 1 = l.map fun x => [x] := by
  have h : pyProduct l 1 = l.flatMap fun x => [[x]] := by
    simp [pyProduct]
  rw [h, flatMap_singleton_eq_map]

theorem pyPermutations_single (v : ℤ) : pyPermutations [v] = [[v]] := rfl

theorem satisfies_single (v : ℤ) (op : Option (Frac → Frac → Frac)) (t : ℤ) :
    satisfies [v] op t = some (v == t) := by
  simp [satisfies, pyPermutations_single, pyReduce, Frac.eqInt, Frac.ofInt]

theorem qualifies_single (c : Cell) (op : String) (t v : ℤ) :
    qualifies [c] op t [v] = some (v == t) := by
  have hconf : conflicting [c] [v] [c] [v] = false := by
    simp [conflicting, RowXorCol]
  simp only [qualifies, hconf, Bool.false_eq_true, if_false]
  exact satisfies_single v (operation op) t

theorem filterOpt_singletons (c : Cell) (op : String) (t : ℤ) (l : List ℤ)
    (hnd : l.Nodup) :
    filterOpt (qualifies [c] op t) (l.map fun v => [v]) =
      some (if t ∈ l then [[t]] else []) := by
  induction l with
  | nil => simp [filterOpt]
  | cons x xs ih =>
    have hx : x ∉ xs := (List.nodup_cons.1 hnd).1
    have ihx := ih (List.nodup_cons.1 hnd).2
    simp only [List.map_cons, filterOpt, qualifies_single, ihx, Option.map_some']
    by_cases hxt : x = t
    · subst hxt
      simp [hx]
    · have : (x == t) = false := by simp [hxt]
      simp only [this, Bool.false_eq_true, if_false, List.mem_cons, Option.some.injEq]
      by_cases hmem : t ∈ xs <;> simp [hmem, hxt, Ne.symm hxt]

theorem cliqueDomain_single_eq (size : ℕ) (c : Cell) (op : String) (t : ℤ) :
    cliqueDomain size ([c], op, t) =
      some (if 1 ≤ t ∧ t ≤ (size : ℤ) then [[t]] else []) := by
  have h1 : ([c], op, t).1.length = 1 := rfl
  rw [cliqueDomain, h1, pyProduct_one, filterOpt_singletons c op t _ (oneTo_nodup size)]
  by_cases hmem : t ∈ oneTo size
  · rw [if_pos hmem, if_pos ((oneTo_mem size t).1 hmem)]
  · rw [if_neg hmem, if_neg (fun hb => hmem ((oneTo_mem size t).2 hb))]

/-! ### The validator -/

deriving instance DecidableEq for Except

/-- Python's substring membership helper: the first list is an initial
segment of the second. -/
def isPrefListOf : List Char → List Char → Bool
  | [], _ => true
  | _ :: _, [] => false
  | a :: as, b :: bs => a == b && isPrefListOf as bs

/-- Python's `needle in hay` on strings: `needle` occurs contiguously in
`hay` (the empty string occurs in every string). -/
def isSubstrOf : List Char → List Char → Bool
  | n, [] => isPrefListOf n []
  | n, h :: hs => isPrefListOf n (h :: hs) || isSubstrOf n hs

/-- The operator check of `validate`: Python `operator in "+-*/."` is a
substring test, not a membership-in-a-set test. -/
def opLegal (operator : String) : Bool :=
  isSubstrOf operator.toList ("+-*/.".toList)

/-- The `outOfBounds` lambda inside `validate` (named `isOutOfBounds`
here because Lean core already uses the source's name). -/
def isOutOfBounds (size : ℕ) (xy : Cell) : Bool :=
  decide (xy.1 < 1) || decide (xy.1 > (size : ℤ)) ||
  decide (xy.2 < 1) || decide (xy.2 > (size : ℤ))

/-- Python `tuple(set(members))`, modelled as first-occurrence
deduplication (CPython's set order is unspecified; no claim depends on
the order of the normalized members). -/
def dedupFirstAux (seen : List Cell) : List Cell → List Cell
  | [] => []
  | x :: xs =>
    if x ∈ seen then dedupFirstAux seen xs
    else x :: dedupFirstAux (x :: seen) xs

def dedupFirst (l : List Cell) : List Cell := dedupFirstAux [] l

/-- The per-clique loop of `validate`, threading the `mentioned` set and
rebuilding the normalized clique list.  `Except.error k` models
`exit(k)`. -/
def validateLoop (size : ℕ) (mentioned : List Cell) :
    List Clique → Except ℕ (List Cell × List Clique)
  | [] => Except.ok (mentioned, [])
  | (members, operator, target) :: rest =>
    let m := dedupFirst members
    if !(opLegal operator) then Except.error 1
    else if !((m.filter (isOutOfBounds size)).isEmpty) then Except.error 2
    else if !((m.filter fun x => decide (x ∈ mentioned)).isEmpty) then Except.error 3
    else
      match validateLoop size (mentioned ++ m) rest with
      | Except.error e => Except.error e
      | Except.ok (men, rest') => Except.ok (men, (m, operator, target) :: rest')

/-- All board cells `(x, y)`, `x, y ∈ [1..size]`, in the row-major order
`[(1,1), (2,1), ..., (size,size)]` used by `validate` and `generate`. -/
def allCells (size : ℕ) : List Cell :=
  (List.range size).flatMap fun yi : ℕ =>
    (List.range size).map fun xi : ℕ => ((xi : ℤ) + 1, (yi : ℤ) + 1)

/-- `validate(size, cliques)`: normalizes each clique and aborts with the
distinct exit codes 1 (bad operator), 2 (out of bounds), 3 (cross
referenced), 4 (incomplete coverage). -/
def validate (size : ℕ) (cliques : List Clique) : Except ℕ (List Clique) :=
  match validateLoop size [] cliques with
  | Except.error e => Except.error e
  | Except.ok (mentioned, cs) =>
    if !(((allCells size).filter fun cell => decide (cell ∉ mentioned)).isEmpty)
    then Except.error 4
    else Except.ok cs

-- Sanity checks mirroring the spec's validator rejection cases.
example : validate 2 [([(1, 1), (2, 2)], "+", 5), ([(1, 2)], ".", 1)] =
    Except.error 4 := by decide
example : validate 2 [([(1, 1), (2, 1)], "+", 3), ([(1, 1), (1, 2), (2, 2)], "+", 6)] =
    Except.error 3 := by decide
example : validate 2 [([(1, 1)], "%", 1)] = Except.error 1 := by decide
example : validate 2 [([(3, 1)], "+", 1)] = Except.error 2 := by decide
example : validate 1 [([(1, 1)], ".", 1)] = Except.ok [([(1, 1)], ".", 1)] := by decide

/-! ### Claim theorems: validator operator check -/

/-- C9 (amended): `validate` on a one-cage list fails with the
`InvalidOperator` exit code 1 iff the operator string is not a contiguous
substring of `"+-*/."` — Python's `operator not in "+-*/."` is a substring
test, so e.g. `"%"` is rejected while `"+-"` or `""` pass the operator
check. -/
theorem validate_error_one_iff (size : ℕ) (members : List Cell) (operator : String)
    (target : ℤ) :
    validate size [(members, operator, target)] = Except.error 1 ↔
      opLegal operator = false := by
  cases hop : opLegal operator with
  | false => simp [validate, validateLoop, hop]
  | true =>
    simp only [validate, validateLoop, hop, Bool.not_true, Bool.false_eq_true, if_false]
    split_ifs <;> (try split) <;> simp_all <;> first | omega | (split <;> simp_all)

/-- C9 (counterexample): the operator `"+-"` is not one of the five legal
symbols, yet `validate` accepts it — so rejection is not equivalent to
"not one of the five symbols". -/
theorem validate_op_substring_cex :
    ("+-" : String) ∉ (["+", "-", "*", "/", "."] : List String) ∧
    validate 1 [([(1, 1)], "+-", 1)] = Except.ok [([(1, 1)], "+-", 1)] := by
  constructor
  · decide
  · decide

/-! ### Claim theorems: domain builder totality -/

theorem operation_eq_none_iff (s : String) :
    operation s = none ↔ s ∉ (["+", "-", "*", "/"] : List String) := by
  unfold operation
  split_ifs <;> simp_all

theorem filterOpt_ne_none {p : α → Option Bool} {l : List α}
    (h : ∀ x ∈ l, p x ≠ none) : ∃ r, filterOpt p l = some r := by
  induction l with
  | nil => exact ⟨[], rfl⟩
  | cons x xs ih =>
    obtain ⟨r', hr'⟩ := ih fun y hy => h y (by simp [hy])
    cases hp : p x with
    | none => exact absurd hp (h x (by simp))
    | some b => exact ⟨if b then x :: r' else r', by simp [filterOpt, hp, hr']⟩

theorem cliqueDomain_ne_none (size : ℕ) (c : Clique) (h1 : c.1 ≠ [])
    (h2 : c.2.1 ∉ (["+", "-", "*", "/"] : List String) → c.1.length = 1) :
    ∃ dom, cliqueDomain size c = some dom := by
  unfold cliqueDomain
  refine filterOpt_ne_none ?_
  intro t ht
  obtain ⟨hlen, -⟩ := (pyProduct_mem _ _ t).1 ht
  unfold qualifies
  split
  · simp
  · have hne : t.isEmpty = false := by
      cases t with
      | nil =>
        exfalso
        exact h1 (List.eq_nil_of_length_eq_zero (by simpa using hlen.symm))
      | cons a as => rfl
    cases hoption : operation c.2.1 with
    | some f =>
      simp [satisfies, hne, hoption]
    | none =>
      have hone : c.1.length = 1 := h2 ((operation_eq_none_iff c.2.1).1 hoption)
      have h21 : decide (2 ≤ t.length) = false := by
        rw [hlen, hone]
        decide
      simp [satisfies, hne, hoption, h21]

/-- C7 (amended): for every validated cage list in which every cage has at
least one member and every cage whose operator has no associated
operation (such as `"."`) has exactly one member, `gdomains` runs without
error and returns a domain (possibly empty) for every cage.  (Without
the italicised restriction the Python code raises a `TypeError`; see the
counterexample.) -/
theorem gdomains_total (size : ℕ) (cs cs' : List Clique)
    (hval : validate size cs = Except.ok cs')
    (h1 : ∀ c ∈ cs', c.1 ≠ [])
    (h2 : ∀ c ∈ cs', c.2.1 ∉ (["+", "-", "*", "/"] : List String) → c.1.length = 1) :
    ∃ ds, gdomains size cs' = some ds ∧ ds.length = cs'.length := by
  clear hval
  induction cs' with
  | nil => exact ⟨[], rfl, rfl⟩
  | cons c rest ih =>
    obtain ⟨ds', hds', hlen'⟩ :=
      ih (fun d hd => h1 d (by simp [hd])) (fun d hd => h2 d (by simp [hd]))
    obtain ⟨dom, hdom⟩ :=
      cliqueDomain_ne_none size c (h1 c (by simp)) (h2 c (by simp))
    refine ⟨(c.1, dom) :: ds', ?_, by simp [hlen']⟩
    simp [gdomains, hdom, hds']

theorem gdomains_total_witness :
    validate 2 [([(1, 1), (2, 1)], "+", 3), ([(1, 2), (2, 2)], "+", 3)] =
      Except.ok [([(1, 1), (2, 1)], "+", 3), ([(1, 2), (2, 2)], "+", 3)] ∧
    (∃ ds, gdomains 2 [([(1, 1), (2, 1)], "+", 3), ([(1, 2), (2, 2)], "+", 3)] = some ds ∧
      ds.length = [([(1, 1), (2, 1)], "+", 3), ([(1, 2), (2, 2)], "+", 3)].length) :=
  ⟨by decide,
    gdomains_total 2 [([(1, 1), (2, 1)], "+", 3), ([(1, 2), (2, 2)], "+", 3)]
      [([(1, 1), (2, 1)], "+", 3), ([(1, 2), (2, 2)], "+", 3)]
      (by decide) (by decide) (by decide)⟩

/-- C7 (counterexample): a cage list that `validate` accepts, containing a
two-cell cage with operator `"."`; `gdomains` raises (`none`) instead of
returning a domain for every cage. -/
theorem gdomains_dot_raises_cex :
    validate 2 [([(1, 1), (2, 1)], ".", 3), ([(1, 2), (2, 2)], "+", 3)] =
      Except.ok [([(1, 1), (2, 1)], ".", 3), ([(1, 2), (2, 2)], "+", 3)] ∧
    gdomains 2 [([(1, 1), (2, 1)], ".", 3), ([(1, 2), (2, 2)], "+", 3)] = none := by
  constructor
  · decide
  · decide

/-! ### Claim theorems: single-cell cage domains -/

/-- C8 (amended): for every size `N` and validated cage with exactly one
member cell and integer target `t`, the domain computed by `gdomains`
contains exactly the tuple `(t,)` when `1 ≤ t ≤ N`, and is empty
otherwise (the candidate tuples only range over `[1..N]`). -/
theorem single_cell_domain (size : ℕ) (cs cs' : List Clique)
    (hval : validate size cs = Except.ok cs') (c : Cell) (op : String) (t : ℤ)
    (hmem : ([c], op, t) ∈ cs') :
    cliqueDomain size ([c], op, t) =
      some (if 1 ≤ t ∧ t ≤ (size : ℤ) then [[t]] else []) :=
  cliqueDomain_single_eq size c op t

theorem single_cell_domain_witness :
    validate 2 [([(1, 1)], ".", 2), ([(2, 1), (1, 2), (2, 2)], "+", 5)] =
      Except.ok [([(1, 1)], ".", 2), ([(2, 1), (1, 2), (2, 2)], "+", 5)] ∧
    cliqueDomain 2 ([(1, 1)], ".", 2) =
      some (if 1 ≤ (2 : ℤ) ∧ (2 : ℤ) ≤ ((2 : ℕ) : ℤ) then [[2]] else []) :=
  ⟨by decide,
    single_cell_domain 2 [([(1, 1)], ".", 2), ([(2, 1), (1, 2), (2, 2)], "+", 5)]
      [([(1, 1)], ".", 2), ([(2, 1), (1, 2), (2, 2)], "+", 5)]
      (by decide) (1, 1) "." 2 (by decide)⟩

/-- C8 (counterexample): a validated single-cell cage whose target `2`
lies outside `[1..1]`; its computed domain is empty, not `[(2,)]`. -/
theorem single_cell_domain_cex :
    validate 1 [([(1, 1)], ".", 2)] = Except.ok [([(1, 1)], ".", 2)] ∧
    cliqueDomain 1 ([(1, 1)], ".", 2) = some [] ∧
    some ([] : List (List ℤ)) ≠ some [[(2 : ℤ)]] := by
  refine ⟨by decide, by decide, by decide⟩

/-! ### The conflict graph -/

/-- The sentinel test of `gneighbors`:
`conflicting(A, [-1]*len(A), B, [-1]*len(B))`. -/
def geomConf (A B : List Cell) : Bool :=
  conflicting A (List.replicate A.length (-1)) B (List.replicate B.length (-1))

/-- One Python dict update `m[k] = v` on the neighbor map. -/
def nupd (m : List Cell → List (List Cell)) (k : List Cell) (v : List (List Cell)) :
    List Cell → List (List Cell) :=
  fun x => if x = k then v else m x

/-- The initialization loop of `gneighbors`: every clique's neighborhood
starts empty. -/
def ginit (cliques : List Clique) : List Cell → List (List Cell) :=
  cliques.foldl (fun m c => nupd m c.1 []) fun _ => []

/-- One inner-loop step of `gneighbors`: when `A != B`, `B` is not yet
recorded and the sentinel conflict test fires, append `B` to
`neighbors[A]` and `A` to `neighbors[B]`. -/
def gstep (m : List Cell → List (List Cell)) (A B : List Cell) :
    List Cell → List (List Cell) :=
  if A ≠ B ∧ B ∉ m A ∧ geomConf A B = true then
    nupd (nupd m A (m A ++ [B])) B ((nupd m A (m A ++ [B])) B ++ [A])
  else m

/-- `gneighbors(cliques)` as a map from member lists to neighbor lists
(Python's dict keyed by the member tuples). -/
def gneighbors (cliques : List Clique) : List Cell → List (List Cell) :=
  cliques.foldl (fun m A => cliques.foldl (fun m' B => gstep m' A.1 B.1) m)
    (ginit cliques)

theorem getD_replicate_neg (n i : ℕ) (hi : i < n) :
    (List.replicate n (-1 : ℤ)).getD i 0 = -1 := by
  rw [List.getD_eq_getElem _ _ (by simpa using hi)]
  simp

theorem RowXorCol_symm (u v : Cell) : RowXorCol u v = RowXorCol v u := by
  unfold RowXorCol
  have e1 : (u.1 == v.1) = (v.1 == u.1) := by
    by_cases h : u.1 = v.1
    · simp [h]
    · simp [h, Ne.symm h]
  have e2 : (u.2 == v.2) = (v.2 == u.2) := by
    by_cases h : u.2 = v.2
    · simp [h]
    · simp [h, Ne.symm h]
  rw [e1, e2]

theorem geomConf_iff (A B : List Cell) :
    geomConf A B = true ↔ ∃ mA ∈ A, ∃ mB ∈ B, RowXorCol mA mB = true := by
  unfold geomConf
  rw [conflicting_eq_true_iff]
  constructor
  · rintro ⟨i, hi, j, hj, hxor, -⟩
    refine ⟨A.getD i (0, 0), ?_, B.getD j (0, 0), ?_, hxor⟩
    · rw [List.getD_eq_getElem _ _ hi]
      exact List.getElem_mem hi
    · rw [List.getD_eq_getElem _ _ hj]
      exact List.getElem_mem hj
  · rintro ⟨mA, hmA, mB, hmB, hxor⟩
    obtain ⟨i, hi, hgi⟩ := List.getElem_of_mem hmA
    obtain ⟨j, hj, hgj⟩ := List.getElem_of_mem hmB
    refine ⟨i, hi, j, hj, ?_, ?_⟩
    · rw [List.getD_eq_getElem _ _ hi, List.getD_eq_getElem _ _ hj, hgi, hgj]
      exact hxor
    · rw [getD_replicate_neg _ _ hi, getD_replicate_neg _ _ hj]

theorem geomConf_symm (A B : List Cell) : geomConf A B = geomConf B A := by
  rw [Bool.eq_iff_iff, geomConf_iff, geomConf_iff]
  constructor
  · rintro ⟨mA, h1, mB, h2, hx⟩
    exact ⟨mB, h2, mA, h1, by rw [RowXorCol_symm]; exact hx⟩
  · rintro ⟨mB, h2, mA, h1, hx⟩
    exact ⟨mA, h1, mB, h2, by rw [RowXorCol_symm]; exact hx⟩

/-- The running invariant of the neighbor map: every recorded neighbor
pair is of distinct keys, geometrically conflicting, and recorded in both
directions. -/
def NbrInv (m : List Cell → List (List Cell)) : Prop :=
  ∀ X Y, Y ∈ m X → X ≠ Y ∧ geomConf X Y = true ∧ X ∈ m Y

theorem gstep_apply (m : List Cell → List (List Cell)) (A B X : List Cell) :
    gstep m A B X =
      if A ≠ B ∧ B ∉ m A ∧ geomConf A B = true then
        (if X = B then m B ++ [A] else if X = A then m A ++ [B] else m X)
      else m X := by
  unfold gstep
  by_cases hc : (A ≠ B ∧ B ∉ m A ∧ geomConf A B = true)
  · rw [if_pos hc, if_pos hc]
    simp only [nupd]
    by_cases hXB : X = B
    · subst hXB
      rw [if_pos rfl, if_pos rfl, if_neg (Ne.symm hc.1)]
    · rw [if_neg hXB, if_neg hXB]
  · rw [if_neg hc, if_neg hc]

theorem gstep_mono {m : List Cell → List (List Cell)} (A B X : List Cell) {Y : List Cell}
    (h : Y ∈ m X) : Y ∈ gstep m A B X := by
  rw [gstep_apply]
  split
  · by_cases hXB : X = B
    · rw [if_pos hXB]
      subst hXB
      exact List.mem_append.2 (Or.inl h)
    · rw [if_neg hXB]
      by_cases hXA : X = A
      · rw [if_pos hXA]
        subst hXA
        exact List.mem_append.2 (Or.inl h)
      · rw [if_neg hXA]
        exact h
  · exact h

theorem foldl_gstep_mono (A : List Cell) (l : List Clique)
    (m : List Cell → List (List Cell)) (X Y : List Cell) (h : Y ∈ m X) :
    Y ∈ (l.foldl (fun m' c => gstep m' A c.1) m) X := by
  induction l generalizing m with
  | nil => exact h
  | cons c rest ih => exact ih _ (gstep_mono A c.1 X h)

theorem gstep_inv {m : List Cell → List (List Cell)} (hInv : NbrInv m)
    (A B : List Cell) : NbrInv (gstep m A B) := by
  intro X Y hY
  rw [gstep_apply] at hY
  by_cases hc : (A ≠ B ∧ B ∉ m A ∧ geomConf A B = true)
  · rw [if_pos hc] at hY
    obtain ⟨hAB, hBnotin, hgeom⟩ := hc
    by_cases hXB : X = B
    · subst hXB
      rw [if_pos rfl] at hY
      rcases List.mem_append.1 hY with hY | hY
      · obtain ⟨hne, hge, hsym⟩ := hInv _ _ hY
        exact ⟨hne, hge, gstep_mono _ _ _ hsym⟩
      · simp only [List.mem_singleton] at hY
        subst hY
        refine ⟨Ne.symm hAB, by rw [geomConf_symm]; exact hgeom, ?_⟩
        rw [gstep_apply, if_pos ⟨hAB, hBnotin, hgeom⟩, if_neg hAB, if_pos rfl]
        exact List.mem_append.2 (Or.inr (by simp))
    · rw [if_neg hXB] at hY
      by_cases hXA : X = A
      · subst hXA
        rw [if_pos rfl] at hY
        rcases List.mem_append.1 hY with hY | hY
        · obtain ⟨hne, hge, hsym⟩ := hInv _ _ hY
          exact ⟨hne, hge, gstep_mono _ _ _ hsym⟩
        · simp only [List.mem_singleton] at hY
          subst hY
          refine ⟨hAB, hgeom, ?_⟩
          rw [gstep_apply, if_pos ⟨hAB, hBnotin, hgeom⟩, if_pos rfl]
          exact List.mem_append.2 (Or.inr (by simp))
      · rw [if_neg hXA] at hY
        obtain ⟨hne, hge, hsym⟩ := hInv _ _ hY
        exact ⟨hne, hge, gstep_mono _ _ _ hsym⟩
  · rw [if_neg hc] at hY
    obtain ⟨hne, hge, hsym⟩ := hInv _ _ hY
    exact ⟨hne, hge, gstep_mono _ _ _ hsym⟩

theorem foldl_gstep_inv (A : List Cell) (l : List Clique)
    (m : List Cell → List (List Cell)) (h : NbrInv m) :
    NbrInv (l.foldl (fun m' c => gstep m' A c.1) m) := by
  induction l generalizing m with
  | nil => exact h
  | cons c rest ih => exact ih _ (gstep_inv h A c.1)

theorem foldl_gstep_complete (A : List Cell) (l : List Clique)
    (m : List Cell → List (List Cell)) (B : List Cell)
    (hB : B ∈ l.map fun c => c.1) (hAB : A ≠ B) (hgeom : geomConf A B = true) :
    B ∈ (l.foldl (fun m' c => gstep m' A c.1) m) A := by
  induction l generalizing m with
  | nil => simp at hB
  | cons c rest ih =>
    rw [List.foldl_cons]
    by_cases hcB : c.1 = B
    · refine foldl_gstep_mono A rest _ A B ?_
      show B ∈ gstep m A c.1 A
      rw [hcB, gstep_apply]
      by_cases hin : B ∈ m A
      · rw [if_neg (by tauto)]
        exact hin
      · rw [if_pos ⟨hAB, hin, hgeom⟩, if_neg hAB, if_pos rfl]
        exact List.mem_append.2 (Or.inr (by simp))
    · have hB' : B ∈ rest.map fun c => c.1 := by
        rcases List.mem_map.1 hB with ⟨d, hd, hd1⟩
        rcases List.mem_cons.1 hd with rfl | hd'
        · exact absurd hd1 hcB
        · exact List.mem_map.2 ⟨d, hd', hd1⟩
      exact ih _ hB'

theorem foldl_outer_mono (cliques l : List Clique)
    (m : List Cell → List (List Cell)) (X Y : List Cell) (h : Y ∈ m X) :
    Y ∈ (l.foldl (fun m' c => cliques.foldl (fun m'' d => gstep m'' c.1 d.1) m') m) X := by
  induction l generalizing m with
  | nil => exact h
  | cons c rest ih => exact ih _ (foldl_gstep_mono c.1 cliques m X Y h)

theorem ginit_apply (cliques : List Clique) (X : List Cell) : ginit cliques X = [] := by
  unfold ginit
  suffices h : ∀ (l : List Clique) (m : List Cell → List (List Cell)),
      (∀ Z, m Z = []) → ∀ Z, (l.foldl (fun m' c => nupd m' c.1 []) m) Z = [] by
    exact h cliques _ (fun _ => rfl) X
  intro l
  induction l with
  | nil => exact fun m hm Z => hm Z
  | cons c rest ih =>
    intro m hm Z
    refine ih _ ?_ Z
    intro W
    show (if W = c.1 then [] else m W) = []
    split
    · rfl
    · exact hm W

theorem gneighbors_inv (cliques : List Clique) : NbrInv (gneighbors cliques) := by
  unfold gneighbors
  suffices h : ∀ (l : List Clique) (m : List Cell → List (List Cell)), NbrInv m →
      NbrInv (l.foldl (fun m' c => cliques.foldl (fun m'' d => gstep m'' c.1 d.1) m') m) by
    refine h cliques _ ?_
    intro X Y hY
    rw [ginit_apply] at hY
    simp at hY
  intro l
  induction l with
  | nil => exact fun m hm => hm
  | cons c rest ih => exact fun m hm => ih _ (foldl_gstep_inv c.1 cliques m hm)

theorem gneighbors_complete (cliques : List Clique) (A B : List Cell)
    (hA : A ∈ cliques.map fun c => c.1) (hB : B ∈ cliques.map fun c => c.1)
    (hAB : A ≠ B) (hgeom : geomConf A B = true) : B ∈ gneighbors cliques A := by
  unfold gneighbors
  suffices h : ∀ (l : List Clique) (m : List Cell → List (List Cell)),
      A ∈ l.map (fun c => c.1) →
      B ∈ (l.foldl (fun m' c => cliques.foldl (fun m'' d => gstep m'' c.1 d.1) m') m) A by
    exact h cliques _ hA
  intro l
  induction l with
  | nil =>
    intro m hmem
    simp at hmem
  | cons c rest ih =>
    intro m hmem
    rw [List.foldl_cons]
    by_cases hcA : c.1 = A
    · refine foldl_outer_mono cliques rest _ A B ?_
      show B ∈ (cliques.foldl (fun m'' d => gstep m'' c.1 d.1) m) A
      rw [hcA]
      exact foldl_gstep_complete A cliques m B hB hAB hgeom
    · have hA' : A ∈ rest.map fun c => c.1 := by
        rcases List.mem_map.1 hmem with ⟨d, hd, hd1⟩
        rcases List.mem_cons.1 hd with rfl | hd'
        · exact absurd hd1 hcA
        · exact List.mem_map.2 ⟨d, hd', hd1⟩
      exact ih _ hA'

/-! ### Claim theorem: conflict-graph invariant -/

/-- C3: for every validated cage list, `gneighbors` marks two distinct
cages `A`, `B` as neighbors iff some member of `A` and some member of `B`
are in the same row xor the same column; the mapping is symmetric and
irreflexive. -/
theorem gneighbors_spec (size : ℕ) (cs0 cs : List Clique)
    (hval : validate size cs0 = Except.ok cs)
    (A B : List Cell) (hA : A ∈ cs.map fun c => c.1) (hB : B ∈ cs.map fun c => c.1)
    (hAB : A ≠ B) :
    (B ∈ gneighbors cs A ↔ ∃ mA ∈ A, ∃ mB ∈ B, RowXorCol mA mB = true) ∧
    (B ∈ gneighbors cs A ↔ A ∈ gneighbors cs B) ∧
    A ∉ gneighbors cs A := by
  have hinv := gneighbors_inv cs
  refine ⟨⟨?_, ?_⟩, ⟨?_, ?_⟩, ?_⟩
  · intro h
    exact (geomConf_iff A B).1 (hinv A B h).2.1
  · intro h
    exact gneighbors_complete cs A B hA hB hAB ((geomConf_iff A B).2 h)
  · intro h
    exact (hinv A B h).2.2
  · intro h
    exact (hinv B A h).2.2
  · intro h
    exact (hinv A A h).1 rfl

theorem gneighbors_spec_witness :
    validate 2 [([(1, 1), (2, 1)], "-", 1), ([(1, 2), (2, 2)], "-", 1)] =
      Except.ok [([(1, 1), (2, 1)], "-", 1), ([(1, 2), (2, 2)], "-", 1)] ∧
    ([(1, 1), (2, 1)] : List Cell) ≠ [(1, 2), (2, 2)] ∧
    ((([(1, 2), (2, 2)] : List Cell) ∈
        gneighbors [([(1, 1), (2, 1)], "-", 1), ([(1, 2), (2, 2)], "-", 1)]
          [(1, 1), (2, 1)] ↔
      ∃ mA ∈ ([(1, 1), (2, 1)] : List Cell), ∃ mB ∈ ([(1, 2), (2, 2)] : List Cell),
        RowXorCol mA mB = true) ∧
    (([(1, 2), (2, 2)] : List Cell) ∈
        gneighbors [([(1, 1), (2, 1)], "-", 1), ([(1, 2), (2, 2)], "-", 1)]
          [(1, 1), (2, 1)] ↔
      ([(1, 1), (2, 1)] : List Cell) ∈
        gneighbors [([(1, 1), (2, 1)], "-", 1), ([(1, 2), (2, 2)], "-", 1)]
          [(1, 2), (2, 2)]) ∧
    ([(1, 1), (2, 1)] : List Cell) ∉
      gneighbors [([(1, 1), (2, 1)], "-", 1), ([(1, 2), (2, 2)], "-", 1)]
        [(1, 1), (2, 1)]) :=
  ⟨by decide, by decide,
    gneighbors_spec 2 [([(1, 1), (2, 1)], "-", 1), ([(1, 2), (2, 2)], "-", 1)]
      [([(1, 1), (2, 1)], "-", 1), ([(1, 2), (2, 2)], "-", 1)] (by decide)
      [(1, 1), (2, 1)] [(1, 2), (2, 2)] (by decide) (by decide) (by decide)⟩

/-! ### The puzzle generator -/

/-- The random source of `generate`, made explicit: key streams for the
row `shuffle` calls, the `random() > 0.5` coin for each column pair, and
raw values for `randint(1, 4)`, `choice(adjs)` and `choice("+*")`.
Quantifying over all values of this structure covers every sequence of
choices the Python random source can produce. -/
structure RNG where
  shufKey : ℕ → List ℕ
  coin : ℕ → ℕ → Bool
  csize : ℕ → ℕ
  pick : ℕ → ℕ → ℕ
  opc : ℕ → Bool

/-- One `shuffle(board)` call: repeatedly move a key-selected element to
the front.  Every permutation of the input is reachable for a suitable
key stream, and the output is always a permutation of the input. -/
def pyShuffle : ℕ → List ℕ → List (List ℤ) → List (List ℤ)
  | 0, _, _ => []
  | _ + 1, _, [] => []
  | fuel + 1, ks, l@(_ :: _) =>
    let i := ks.headD 0 % l.length
    l.getD i [] :: pyShuffle fuel ks.tail (l.eraseIdx i)

/-- The initial Latin square:
`board = [[((i + j) % size) + 1 for i in range(size)] for j in range(size)]`. -/
def initMatrix (size : ℕ) : List (List ℤ) :=
  (List.range size).map fun j : ℕ =>
    (List.range size).map fun i : ℕ => (((i + j) % size : ℕ) : ℤ) + 1

/-- Swap columns `c1` and `c2` in every row:
`board[r][c1], board[r][c2] = board[r][c2], board[r][c1]`. -/
def colswap (c1 c2 : ℕ) (m : List (List ℤ)) : List (List ℤ) :=
  m.map fun r => (r.set c1 (r.getD c2 0)).set c2 (r.getD c1 0)

/-- The board after the `size` row shuffles. -/
def shuffledMatrix (size : ℕ) (R : RNG) : List (List ℤ) :=
  (List.range size).foldl (fun m n => pyShuffle m.length (R.shufKey n) m)
    (initMatrix size)

/-- The column-swap loop: for every ordered pair `(c1, c2)` of columns,
swap them when the coin fires. -/
def swappedMatrix (size : ℕ) (R : RNG) : List (List ℤ) :=
  ((List.range size).flatMap fun c1 : ℕ =>
      (List.range size).map fun c2 : ℕ => (c1, c2)).foldl
    (fun m p => if R.coin p.1 p.2 then colswap p.1 p.2 m else m)
    (shuffledMatrix size R)

/-- The board dictionary `{(j+1, i+1): board[i][j]}`: cell `(x, y)` maps
to the matrix entry in row `y - 1`, column `x - 1`. -/
def genBoard (size : ℕ) (R : RNG) : Cell → ℤ :=
  fun p => ((swappedMatrix size R).getD (p.2 - 1).toNat []).getD (p.1 - 1).toNat 0

/-- The clique-growing loop: repeat up to `csize - 1` times, collecting an
uncaged cell adjacent to the most recently added cell; stop early when no
adjacent uncaged cell exists.  Returns the added cells (in insertion
order) and the remaining uncaged cells. -/
def growClique (R : RNG) (k : ℕ) : ℕ → Cell → List Cell → List Cell × List Cell
  | 0, _, uncaged => ([], uncaged)
  | fuel + 1, cur, uncaged =>
    let adjs := uncaged.filter fun other => adjacent cur other
    match hadjs : adjs with
    | [] => ([], uncaged)
    | _ :: _ =>
      let cell := adjs.getD (R.pick k fuel % adjs.length) (0, 0)
      let g := growClique R k fuel cell (uncaged.erase cell)
      (cell :: g.1, g.2)

/-- Classification of a finished clique by its size: single cells get
operator `"."` and their own value as target; pairs get `"/"` when
`board[fst] / board[snd] > 0` and `board[fst] % board[snd] == 0`, else
`"-"`; larger cliques get a random choice of `"+"` or `"*"`.  The target
is `int(reduce(operation(operator), values))`. -/
def classify (board : Cell → ℤ) (opc : Bool) (root : Cell) (added : List Cell) : Clique :=
  match added with
  | [] => ([root], ".", board root)
  | snd :: _ =>
    let cells := root :: added
    let operator :=
      if cells.length = 2 then
        if Frac.isPos (Frac.div (Frac.ofInt (board root)) (Frac.ofInt (board snd))) = true ∧
            board root % board snd = 0
        then "/" else "-"
      else if opc then "+" else "*"
    let target :=
      match pyReduce (operation operator) (cells.map board) with
      | some q => pyInt q
      | none => 0
    (cells, operator, target)

/-- The while loop of `generate`: pop the row-major-first uncaged cell as
a root, grow the clique, classify it, repeat.  The fuel is an upper bound
on the number of iterations; `generate` passes `size * size`, which
suffices since every iteration removes at least the root cell. -/
def carve (board : Cell → ℤ) (R : RNG) : ℕ → ℕ → List Cell → List Clique
  | 0, _, _ => []
  | _ + 1, _, [] => []
  | fuel + 1, k, root :: rest =>
    let csize := 1 + R.csize k % 4
    let g := growClique R k (csize - 1) root rest
    classify board (R.opc k) root g.1 :: carve board R fuel (k + 1) g.2

/-- `generate(size)`: the shuffled Latin square is carved into cliques
starting from the row-major list of all cells. -/
def generate (size : ℕ) (R : RNG) : ℕ × List Clique :=
  (size, carve (genBoard size R) R (size * size) 0 (allCells size))

-- Sanity checks: a degenerate random source carves single cells; a
-- source drawing clique size 2 exercises the pair classification.
example : (generate 2 ⟨fun _ => [], fun _ _ => false, fun _ => 0, fun _ _ => 0,
    fun _ => false⟩).2 =
    [([(1, 1)], ".", 1), ([(2, 1)], ".", 2), ([(1, 2)], ".", 2), ([(2, 2)], ".", 1)] := by
  decide
example : (generate 2 ⟨fun _ => [], fun _ _ => false, fun _ => 1, fun _ _ => 0,
    fun _ => false⟩).2 =
    [([(1, 1), (2, 1)], "-", -1), ([(1, 2), (2, 2)], "/", 2)] := by
  decide

/-! ### Generator partition property -/

theorem set_getElem_id {α : Type} (l : List α) (i : ℕ) (hi : i < l.length) :
    l.set i l[i] = l := by
  apply List.ext_getElem
  · simp
  · intro n h1 h2
    rw [List.getElem_set]
    split
    · subst ‹i = n›
      rfl
    · rfl

theorem getElem_cons_swap_perm {α : Type} (t : List α) (k : ℕ) (hk : k < t.length) (a : α) :
    (t[k] :: t.set k a).Perm (a :: t) := by
  induction t generalizing k with
  | nil => simp at hk
  | cons c t' ih =>
    cases k with
    | zero => exact List.Perm.swap a c t'
    | succ k' =>
      have hk' : k' < t'.length := by simpa using hk
      show (t'[k'] :: c :: t'.set k' a).Perm (a :: c :: t')
      have p1 : (t'[k'] :: c :: t'.set k' a).Perm (c :: t'[k'] :: t'.set k' a) :=
        List.Perm.swap c (t'[k']) _
      have p2 : (c :: t'[k'] :: t'.set k' a).Perm (c :: a :: t') :=
        List.Perm.cons c (ih k' hk')
      have p3 : (c :: a :: t').Perm (a :: c :: t') := List.Perm.swap a c t'
      exact (p1.trans p2).trans p3

theorem swap_sets_perm_lt {α : Type} (l : List α) (i j : ℕ) (hij : i < j)
    (hj : j < l.length) (hi : i < l.length) :
    ((l.set i l[j]).set j l[i]).Perm l := by
  induction l generalizing i j with
  | nil => simp at hj
  | cons c t ih =>
    cases i with
    | zero =>
      cases j with
      | zero => omega
      | succ j' =>
        have hj' : j' < t.length := by simpa using hj
        show (t[j'] :: t.set j' c).Perm (c :: t)
        exact getElem_cons_swap_perm t j' hj' c
    | succ i' =>
      cases j with
      | zero => omega
      | succ j' =>
        have hj' : j' < t.length := by simpa using hj
        have hi' : i' < t.length := by simpa using hi
        show (c :: (t.set i' t[j']).set j' t[i']).Perm (c :: t)
        exact List.Perm.cons c (ih i' j' (by omega) hj' hi')

theorem set_swap_perm {α : Type} (l : List α) (i j : ℕ) (hi : i < l.length)
    (hj : j < l.length) : ((l.set i l[j]).set j l[i]).Perm l := by
  rcases lt_trichotomy i j with h | rfl | h
  · exact swap_sets_perm_lt l i j h hj hi
  · rw [List.set_set, set_getElem_id l i hi]
  · rw [List.set_comm _ _ _ (by omega)]
    exact swap_sets_perm_lt l j i h hi hj

theorem allCells_mem (size : ℕ) (x y : ℤ) :
    (x, y) ∈ allCells size ↔ 1 ≤ x ∧ x ≤ (size : ℤ) ∧ 1 ≤ y ∧ y ≤ (size : ℤ) := by
  simp only [allCells, List.mem_flatMap, List.mem_map, List.mem_range]
  constructor
  · rintro ⟨yi, hyi, xi, hxi, heq⟩
    obtain ⟨h1, h2⟩ := Prod.mk.injEq .. ▸ heq
    subst h1
    subst h2
    omega
  · rintro ⟨h1, h2, h3, h4⟩
    exact ⟨(y - 1).toNat, by omega, (x - 1).toNat, by omega, by
      rw [Prod.mk.injEq]
      omega⟩

theorem nodup_flatMap_of (l : List ℕ) (f : ℕ → List Cell) (hl : l.Nodup)
    (hf : ∀ a ∈ l, (f a).Nodup)
    (hdisj : ∀ a ∈ l, ∀ b ∈ l, a ≠ b → ∀ x ∈ f a, x ∉ f b) :
    (l.flatMap f).Nodup := by
  induction l with
  | nil => simp
  | cons a rest ih =>
    rw [List.flatMap_cons, List.nodup_append]
    refine ⟨hf a (by simp), ?_, ?_⟩
    · refine ih (List.nodup_cons.1 hl).2 (fun b hb => hf b (by simp [hb])) ?_
      intro b hb c hc hbc x hx
      exact hdisj b (by simp [hb]) c (by simp [hc]) hbc x hx
    · intro x hx hx'
      obtain ⟨b, hb, hxb⟩ := List.mem_flatMap.1 hx'
      have hab : a ≠ b := by
        rintro rfl
        exact (List.nodup_cons.1 hl).1 hb
      exact hdisj a (by simp) b (by simp [hb]) hab x hx hxb

theorem allCells_nodup (size : ℕ) : (allCells size).Nodup := by
  unfold allCells
  refine nodup_flatMap_of _ _ (List.nodup_range size) ?_ ?_
  · intro a ha
    refine List.Nodup.map_on ?_ (List.nodup_range size)
    intro x hx y hy hxy
    rw [Prod.mk.injEq] at hxy
    omega
  · intro a ha b hb hab x hx hx'
    obtain ⟨xa, hxa, heqa⟩ := List.mem_map.1 hx
    obtain ⟨xb, hxb, heqb⟩ := List.mem_map.1 hx'
    rw [← heqb] at heqa
    rw [Prod.mk.injEq] at heqa
    exact hab (by omega)

theorem allCells_length (size : ℕ) : (allCells size).length = size * size := by
  unfold allCells
  rw [List.length_flatMap]
  have h : List.map (List.length ∘ fun yi : ℕ =>
      (List.range size).map fun xi : ℕ => ((xi : ℤ) + 1, (yi : ℤ) + 1)) (List.range size) =
      List.replicate size size := by
    refine List.eq_replicate_iff.2 ⟨by simp, ?_⟩
    intro b hb
    obtain ⟨a, -, rfl⟩ := List.mem_map.1 hb
    simp
  rw [h, List.sum_replicate, smul_eq_mul]

theorem lawful_beq_of_dec {α : Type} (d : DecidableEq α) :
    @LawfulBEq α (@instBEqOfDecidableEq α d) := by
  constructor
  · intro a b h
    exact of_decide_eq_true h
  · intro a
    exact decide_eq_true rfl

theorem erase_beq_bridge {α : Type} (i1 i2 : BEq α) (h1 : @LawfulBEq α i1)
    (h2 : @LawfulBEq α i2) (l : List α) (a : α) :
    @List.erase α i1 l a = @List.erase α i2 l a := by
  induction l with
  | nil => rfl
  | cons b t ih =>
    rw [@List.erase_cons α i1 a b t, @List.erase_cons α i2 a b t]
    have e : (@BEq.beq α i1 b a) = (@BEq.beq α i2 b a) := by
      rw [Bool.eq_iff_iff,
        show ((@BEq.beq α i1 b a) = true) ↔ b = a from @beq_iff_eq α i1 h1 b a,
        show ((@BEq.beq α i2 b a) = true) ↔ b = a from @beq_iff_eq α i2 h2 b a]
    rw [e, ih]

theorem growClique_perm (R : RNG) (k : ℕ) :
    ∀ (fuel : ℕ) (cur : Cell) (uncaged : List Cell),
      uncaged.Perm ((growClique R k fuel cur uncaged).1 ++
        (growClique R k fuel cur uncaged).2) := by
  intro fuel
  induction fuel with
  | zero =>
    intro cur uncaged
    simp [growClique]
  | succ fuel ih =>
    intro cur uncaged
    simp only [growClique]
    cases hadjs : uncaged.filter fun other => adjacent cur other with
    | nil => simp
    | cons a as =>
      simp only []
      have hlenpos : 0 < (a :: as).length := by simp
      have hidx : R.pick k fuel % (a :: as).length < (a :: as).length :=
        Nat.mod_lt _ hlenpos
      set cell := (a :: as).getD (R.pick k fuel % (a :: as).length) (0, 0) with hcell
      have hcellmem : cell ∈ a :: as := by
        rw [hcell, List.getD_eq_getElem _ _ hidx]
        exact List.getElem_mem hidx
      have hcellun : cell ∈ uncaged := by
        have := hadjs ▸ hcellmem
        exact List.mem_of_mem_filter this
      have h1 : uncaged.Perm (cell :: uncaged.erase cell) := by
        rw [erase_beq_bridge (inferInstance : BEq Cell)
          (@instBEqOfDecidableEq Cell (inferInstance : DecidableEq Cell))
          inferInstance (lawful_beq_of_dec _)]
        exact List.perm_cons_erase hcellun
      have h2 := ih cell (uncaged.erase cell)
      exact h1.trans (List.Perm.cons cell h2)

theorem classify_members (board : Cell → ℤ) (opc : Bool) (root : Cell)
    (added : List Cell) : (classify board opc root added).1 = root :: added := by
  cases added <;> rfl

theorem carve_flat_perm (board : Cell → ℤ) (R : RNG) :
    ∀ (fuel k : ℕ) (uncaged : List Cell), uncaged.length ≤ fuel →
      uncaged.Perm ((carve board R fuel k uncaged).flatMap fun c => c.1) := by
  intro fuel
  induction fuel with
  | zero =>
    intro k uncaged h
    have huncaged : uncaged = [] := List.eq_nil_of_length_eq_zero (by omega)
    subst huncaged
    simp [carve]
  | succ fuel ih =>
    intro k uncaged h
    cases uncaged with
    | nil => simp [carve]
    | cons root rest =>
      simp only [carve, List.flatMap_cons, classify_members]
      have hperm := growClique_perm R k (1 + R.csize k % 4 - 1) root rest
      have hlen : (growClique R k (1 + R.csize k % 4 - 1) root rest).2.length ≤ fuel := by
        have heq := hperm.length_eq
        rw [List.length_append] at heq
        simp only [List.length_cons] at h
        omega
      have h2 := ih (k + 1) _ hlen
      have h3 : rest.Perm ((growClique R k (1 + R.csize k % 4 - 1) root rest).1 ++
          ((carve board R fuel (k + 1)
            (growClique R k (1 + R.csize k % 4 - 1) root rest).2).flatMap fun c => c.1)) :=
        hperm.trans (List.Perm.append_left _ h2)
      exact List.Perm.cons root h3

theorem count_flatMap {α β : Type} [DecidableEq α] (f : β → List α) (a : α) :
    ∀ l : List β, ((l.flatMap f).count a) = (l.map fun c => (f c).count a).sum := by
  intro l
  induction l with
  | nil => simp
  | cons c rest ih => simp [List.flatMap_cons, List.count_append, ih]

theorem flatMap_nodup_parts {α β : Type} (f : β → List α) (l : List β)
    (h : (l.flatMap f).Nodup) : ∀ c ∈ l, (f c).Nodup := by
  induction l with
  | nil => simp
  | cons c rest ih =>
    rw [List.flatMap_cons, List.nodup_append] at h
    intro d hd
    rcases List.mem_cons.1 hd with rfl | hd'
    · exact h.1
    · exact ih h.2.1 d hd'

theorem countP_of_count_one {α β : Type} [DecidableEq α] (f : β → List α) (a : α) :
    ∀ (l : List β), (∀ c ∈ l, (f c).Nodup) →
      (l.flatMap f).count a = 1 →
      (l.countP fun c => decide (a ∈ f c)) = 1 := by
  intro l
  induction l with
  | nil => simp
  | cons c rest ih =>
    intro hnd hcount
    rw [List.flatMap_cons, List.count_append] at hcount
    rw [List.countP_cons]
    by_cases hmem : a ∈ f c
    · have h1 : (f c).count a = 1 := List.count_eq_one_of_mem (hnd c (by simp)) hmem
      have h0 : (rest.flatMap f).count a = 0 := by omega
      have hrest : (rest.countP fun c => decide (a ∈ f c)) = 0 := by
        rw [List.countP_eq_zero]
        intro d hd
        simp only [decide_eq_true_eq]
        intro had
        have hin : a ∈ rest.flatMap f := List.mem_flatMap.2 ⟨d, hd, had⟩
        have hne : (rest.flatMap f).count a ≠ 0 := by
          rw [Ne, List.count_eq_zero]
          exact fun hn => hn hin
        omega
      simp [hrest, hmem]
    · have h0 : (f c).count a = 0 := List.count_eq_zero.2 hmem
      have h1 : (rest.flatMap f).count a = 1 := by omega
      have hrest := ih (fun d hd => hnd d (by simp [hd])) h1
      simp [hrest, hmem]

/-! ### Claim theorem: partition property -/

/-- C4: for every size `N ≥ 1` and every sequence of random choices, the
cage list returned by `generate(N)` partitions the `N×N` grid: every
in-bounds cell occurs in the member list of exactly one cage, and no cage
contains a duplicate cell. -/
theorem decide_irrel {p : Prop} (i1 i2 : Decidable p) : @decide p i1 = @decide p i2 :=
  match i1, i2 with
  | .isTrue _, .isTrue _ => rfl
  | .isFalse _, .isFalse _ => rfl
  | .isTrue h, .isFalse h' => absurd h h'
  | .isFalse h', .isTrue h => absurd h h'

theorem generate_partition (size : ℕ) (hsize : 1 ≤ size) (R : RNG) :
    (∀ x y : ℤ, 1 ≤ x → x ≤ (size : ℤ) → 1 ≤ y → y ≤ (size : ℤ) →
      ((generate size R).2.countP fun c => decide ((x, y) ∈ c.1)) = 1) ∧
    ∀ c ∈ (generate size R).2, c.1.Nodup := by
  have hflat : (allCells size).Perm ((generate size R).2.flatMap fun c => c.1) := by
    have hlen : (allCells size).length ≤ size * size := by rw [allCells_length]
    exact carve_flat_perm (genBoard size R) R (size * size) 0 (allCells size) hlen
  have hnodup : ((generate size R).2.flatMap fun c => c.1).Nodup :=
    hflat.nodup_iff.1 (allCells_nodup size)
  have hparts : ∀ c ∈ (generate size R).2, c.1.Nodup :=
    flatMap_nodup_parts _ _ hnodup
  refine ⟨?_, hparts⟩
  intro x y h1 h2 h3 h4
  have hmem : (x, y) ∈ allCells size := (allCells_mem size x y).2 ⟨h1, h2, h3, h4⟩
  have hcount1 := List.count_eq_one_of_mem (allCells_nodup size) hmem
  have hcount2 := (hflat.count_eq (x, y)) ▸ hcount1
  have hres := countP_of_count_one (fun c : Clique => c.1) (x, y) _ hparts hcount2
  exact (congrArg (fun p => List.countP p (generate size R).2)
    (funext fun c => decide_irrel _ _)).trans hres

theorem generate_partition_witness :
    (1 : ℕ) ≤ 1 ∧
    ((generate 1 ⟨fun _ => [], fun _ _ => false, fun _ => 0, fun _ _ => 0,
        fun _ => false⟩).2.countP fun c => decide (((1 : ℤ), (1 : ℤ)) ∈ c.1)) = 1 :=
  ⟨le_rfl,
    (generate_partition 1 le_rfl _).1 1 1 le_rfl (by norm_num) le_rfl (by norm_num)⟩

/-! ### Claim theorem: size-2 cage classification -/

/-- C6: whenever `generate` forms a cage of exactly two cells whose grid
values in insertion order are `vf` and `vs` (both positive, as grid
values are), it assigns operator `"/"` with target `vf / vs` exactly when
`vs` divides `vf` with no remainder — only this direction is tested — and
otherwise assigns operator `"-"` with target `vf - vs`. -/
theorem classify_size_two (board : Cell → ℤ) (opc : Bool) (fst snd : Cell)
    (h1 : 1 ≤ board fst) (h2 : 1 ≤ board snd) :
    (board snd ∣ board fst ∧
      classify board opc fst [snd] = ([fst, snd], "/", board fst / board snd)) ∨
    (¬board snd ∣ board fst ∧
      classify board opc fst [snd] = ([fst, snd], "-", board fst - board snd)) := by
  have hpos : Frac.isPos (Frac.div (Frac.ofInt (board fst)) (Frac.ofInt (board snd))) = true := by
    simp only [Frac.isPos, Frac.div, Frac.ofInt, decide_eq_true_eq]
    have hp : 0 < board fst * board snd := mul_pos (by omega) (by omega)
    simpa using hp
  by_cases hdvd : board snd ∣ board fst
  · left
    refine ⟨hdvd, ?_⟩
    have hmod : board fst % board snd = 0 := Int.emod_eq_zero_of_dvd hdvd
    simp only [classify]
    rw [if_pos (by rfl), if_pos ⟨hpos, hmod⟩]
    simp [operation, pyReduce, Frac.div, Frac.ofInt, pyInt, Int.tdiv_eq_ediv_of_dvd hdvd]
  · right
    refine ⟨hdvd, ?_⟩
    have hmod : board fst % board snd ≠ 0 := fun h => hdvd (Int.dvd_of_emod_eq_zero h)
    simp only [classify]
    rw [if_pos (by rfl), if_neg (by tauto)]
    simp [operation, pyReduce, Frac.sub, Frac.ofInt, pyInt]

theorem classify_size_two_witness :
    1 ≤ (fun c : Cell => if c = (1, 1) then (4 : ℤ) else 2) (1, 1) ∧
    1 ≤ (fun c : Cell => if c = (1, 1) then (4 : ℤ) else 2) (2, 1) ∧
    (((fun c : Cell => if c = (1, 1) then (4 : ℤ) else 2) (2, 1) ∣
        (fun c : Cell => if c = (1, 1) then (4 : ℤ) else 2) (1, 1) ∧
      classify (fun c : Cell => if c = (1, 1) then (4 : ℤ) else 2) false (1, 1) [(2, 1)] =
        ([(1, 1), (2, 1)], "/",
          (fun c : Cell => if c = (1, 1) then (4 : ℤ) else 2) (1, 1) /
            (fun c : Cell => if c = (1, 1) then (4 : ℤ) else 2) (2, 1))) ∨
    (¬((fun c : Cell => if c = (1, 1) then (4 : ℤ) else 2) (2, 1) ∣
        (fun c : Cell => if c = (1, 1) then (4 : ℤ) else 2) (1, 1)) ∧
      classify (fun c : Cell => if c = (1, 1) then (4 : ℤ) else 2) false (1, 1) [(2, 1)] =
        ([(1, 1), (2, 1)], "-",
          (fun c : Cell => if c = (1, 1) then (4 : ℤ) else 2) (1, 1) -
            (fun c : Cell => if c = (1, 1) then (4 : ℤ) else 2) (2, 1)))) :=
  ⟨by norm_num, by norm_num,
    classify_size_two (fun c : Cell => if c = (1, 1) then (4 : ℤ) else 2) false
      (1, 1) (2, 1) (by norm_num) (by norm_num)⟩

/-! ### Latin square preservation -/

theorem oneTo_length (size : ℕ) : (oneTo size).length = size := by simp [oneTo]

theorem rotRow_perm (size j : ℕ) :
    ((List.range size).map fun i : ℕ => (((i + j) % size : ℕ) : ℤ) + 1).Perm (oneTo size) := by
  rcases Nat.eq_zero_or_pos size with hs | hpos
  · subst hs
    simp [oneTo]
  · have hnd : ((List.range size).map fun i : ℕ => (((i + j) % size : ℕ) : ℤ) + 1).Nodup := by
      refine List.Nodup.map_on ?_ (List.nodup_range size)
      intro x hx y hy hxy
      have hx' : x < size := List.mem_range.1 hx
      have hy' : y < size := List.mem_range.1 hy
      have hmods : (x + j) % size = (y + j) % size := by
        have := hxy
        omega
      have hxy' : x ≡ y [MOD size] := Nat.ModEq.add_right_cancel' j hmods
      have hfin : x % size = y % size := hxy'
      rwa [Nat.mod_eq_of_lt hx', Nat.mod_eq_of_lt hy'] at hfin
    have hsub : ((List.range size).map fun i : ℕ => (((i + j) % size : ℕ) : ℤ) + 1) ⊆
        oneTo size := by
      intro v hv
      obtain ⟨i, hi, rfl⟩ := List.mem_map.1 hv
      rw [oneTo_mem]
      have hlt : (i + j) % size < size := Nat.mod_lt _ hpos
      omega
    refine (List.subperm_of_subset hnd hsub).perm_of_length_le ?_
    simp [oneTo]

/-- Each row of the board is a permutation of `[1..size]`. -/
def LatinRows (size : ℕ) (m : List (List ℤ)) : Prop :=
  m.length = size ∧ ∀ r ∈ m, r.Perm (oneTo size)

/-- Each column of the board is a permutation of `[1..size]`. -/
def LatinCols (size : ℕ) (m : List (List ℤ)) : Prop :=
  ∀ i < size, (m.map fun r => r.getD i 0).Perm (oneTo size)

theorem initMatrix_rows (size : ℕ) : LatinRows size (initMatrix size) := by
  constructor
  · simp [initMatrix]
  · intro r hr
    obtain ⟨j, hj, rfl⟩ := List.mem_map.1 hr
    exact rotRow_perm size j

theorem initMatrix_cols (size : ℕ) : LatinCols size (initMatrix size) := by
  intro i hi
  have hcol : (initMatrix size).map (fun r => r.getD i 0) =
      (List.range size).map fun j : ℕ => (((i + j) % size : ℕ) : ℤ) + 1 := by
    unfold initMatrix
    rw [List.map_map]
    refine List.map_congr_left ?_
    intro j hj
    simp only [Function.comp]
    rw [List.getD_eq_getElem _ _ (by simpa using hi)]
    rw [List.getElem_map]
    rw [List.getElem_range]
  rw [hcol]
  have hcomm : ((List.range size).map fun j : ℕ => (((i + j) % size : ℕ) : ℤ) + 1) =
      (List.range size).map fun j : ℕ => (((j + i) % size : ℕ) : ℤ) + 1 := by
    refine List.map_congr_left fun a _ => ?_
    rw [Nat.add_comm]
  rw [hcomm]
  exact rotRow_perm size i

theorem pyShuffle_perm : ∀ (fuel : ℕ) (ks : List ℕ) (l : List (List ℤ)),
    l.length ≤ fuel → (pyShuffle fuel ks l).Perm l := by
  intro fuel
  induction fuel with
  | zero =>
    intro ks l h
    have hl : l = [] := List.eq_nil_of_length_eq_zero (by omega)
    subst hl
    simp [pyShuffle]
  | succ fuel ih =>
    intro ks l h
    match l with
    | [] => simp [pyShuffle]
    | r :: t =>
      simp only [pyShuffle]
      have hilt : ks.headD 0 % (r :: t).length < (r :: t).length :=
        Nat.mod_lt _ (by simp)
      have hlen : ((r :: t).eraseIdx (ks.headD 0 % (r :: t).length)).length ≤ fuel := by
        have hd := List.length_eraseIdx_add_one hilt
        omega
      have hrec := ih ks.tail _ hlen
      have hp := perm_cons_eraseIdx (r :: t) ([] : List ℤ) _ hilt
      exact (hrec.cons _).trans hp.symm

theorem latin_pyShuffle (size fuel : ℕ) (ks : List ℕ) (m : List (List ℤ))
    (hf : m.length ≤ fuel) (hr : LatinRows size m) (hc : LatinCols size m) :
    LatinRows size (pyShuffle fuel ks m) ∧ LatinCols size (pyShuffle fuel ks m) := by
  have hperm := pyShuffle_perm fuel ks m hf
  refine ⟨⟨?_, ?_⟩, ?_⟩
  · rw [hperm.length_eq]
    exact hr.1
  · intro r hrm
    exact hr.2 r (hperm.subset hrm)
  · intro i hi
    exact (hperm.map fun r => r.getD i 0).trans (hc i hi)

theorem shuffledMatrix_latin (size : ℕ) (R : RNG) :
    LatinRows size (shuffledMatrix size R) ∧ LatinCols size (shuffledMatrix size R) := by
  unfold shuffledMatrix
  have hin : LatinRows size (initMatrix size) ∧ LatinCols size (initMatrix size) :=
    ⟨initMatrix_rows size, initMatrix_cols size⟩
  suffices h : ∀ (l : List ℕ) (m : List (List ℤ)),
      LatinRows size m ∧ LatinCols size m →
      LatinRows size (l.foldl (fun m' n => pyShuffle m'.length (R.shufKey n) m') m) ∧
      LatinCols size (l.foldl (fun m' n => pyShuffle m'.length (R.shufKey n) m') m) by
    exact h _ _ hin
  intro l
  induction l with
  | nil => exact fun m h => h
  | cons n rest ih =>
    intro m h
    exact ih _ (latin_pyShuffle size m.length (R.shufKey n) m le_rfl h.1 h.2)

theorem latin_colswap (size c1 c2 : ℕ) (m : List (List ℤ))
    (hc1 : c1 < size) (hc2 : c2 < size)
    (hr : LatinRows size m) (hc : LatinCols size m) :
    LatinRows size (colswap c1 c2 m) ∧ LatinCols size (colswap c1 c2 m) := by
  have hrowlen : ∀ r ∈ m, r.length = size := by
    intro r hrm
    rw [(hr.2 r hrm).length_eq, oneTo_length]
  refine ⟨⟨?_, ?_⟩, ?_⟩
  · rw [colswap, List.length_map]
    exact hr.1
  · intro r' hr'
    obtain ⟨r, hrm, rfl⟩ := List.mem_map.1 hr'
    have hlen := hrowlen r hrm
    have hc2r : c2 < r.length := by omega
    have hc1r : c1 < r.length := by omega
    have hg2 : r.getD c2 0 = r[c2] := List.getD_eq_getElem _ _ hc2r
    have hg1 : r.getD c1 0 = r[c1] := List.getD_eq_getElem _ _ hc1r
    rw [hg1, hg2]
    exact (set_swap_perm r c1 c2 (by omega) (by omega)).trans (hr.2 r hrm)
  · intro k hk
    have hcol : (colswap c1 c2 m).map (fun r => r.getD k 0) =
        m.map fun r => r.getD (if k = c2 then c1 else if k = c1 then c2 else k) 0 := by
      unfold colswap
      rw [List.map_map]
      refine List.map_congr_left ?_
      intro r hrm
      have hlen := hrowlen r hrm
      have hlen2 : ((r.set c1 (r.getD c2 0)).set c2 (r.getD c1 0)).length = size := by
        simp [hlen]
      simp only [Function.comp]
      by_cases hk2 : k = c2
      · subst hk2
        rw [if_pos rfl]
        rw [List.getD_eq_getElem _ _ (by omega)]
        rw [List.getElem_set_self]
      · rw [if_neg hk2]
        by_cases hk1 : k = c1
        · subst hk1
          rw [if_pos rfl]
          rw [List.getD_eq_getElem _ _ (by omega)]
          rw [List.getElem_set_ne (fun h => hk2 h.symm)]
          rw [List.getElem_set_self]
        · rw [if_neg hk1]
          rw [List.getD_eq_getElem _ _ (by omega),
            List.getD_eq_getElem _ _ (by omega : k < r.length)]
          rw [List.getElem_set_ne (fun h => hk2 h.symm)]
          rw [List.getElem_set_ne (fun h => hk1 h.symm)]
    rw [hcol]
    by_cases hk2 : k = c2
    · rw [if_pos hk2]
      exact hc c1 hc1
    · rw [if_neg hk2]
      by_cases hk1 : k = c1
      · rw [if_pos hk1]
        exact hc c2 hc2
      · rw [if_neg hk1]
        exact hc k hk

theorem swappedMatrix_latin (size : ℕ) (R : RNG) :
    LatinRows size (swappedMatrix size R) ∧ LatinCols size (swappedMatrix size R) := by
  unfold swappedMatrix
  have hpairs : ∀ p ∈ ((List.range size).flatMap fun c1 : ℕ =>
      (List.range size).map fun c2 : ℕ => (c1, c2)), p.1 < size ∧ p.2 < size := by
    intro p hp
    obtain ⟨c1, hc1, hp2⟩ := List.mem_flatMap.1 hp
    obtain ⟨c2, hc2, rfl⟩ := List.mem_map.1 hp2
    exact ⟨List.mem_range.1 hc1, List.mem_range.1 hc2⟩
  have hstart := shuffledMatrix_latin size R
  suffices h : ∀ (ps : List (ℕ × ℕ)) (m : List (List ℤ)),
      (∀ p ∈ ps, p.1 < size ∧ p.2 < size) →
      LatinRows size m ∧ LatinCols size m →
      LatinRows size (ps.foldl
        (fun m' p => if R.coin p.1 p.2 then colswap p.1 p.2 m' else m') m) ∧
      LatinCols size (ps.foldl
        (fun m' p => if R.coin p.1 p.2 then colswap p.1 p.2 m' else m') m) by
    exact h _ _ hpairs hstart
  intro ps
  induction ps with
  | nil => exact fun m _ h => h
  | cons p rest ih =>
    intro m hb h
    rw [List.foldl_cons]
    refine ih _ (fun q hq => hb q (by simp [hq])) ?_
    by_cases hcoin : R.coin p.1 p.2
    · rw [if_pos hcoin]
      exact latin_colswap size p.1 p.2 m (hb p (by simp)).1 (hb p (by simp)).2 h.1 h.2
    · rw [if_neg hcoin]
      exact h

theorem genBoard_entry (size : ℕ) (R : RNG) {x y : ℤ}
    (hx1 : 1 ≤ x) (hx2 : x ≤ (size : ℤ)) (hy1 : 1 ≤ y) (hy2 : y ≤ (size : ℤ)) :
    ∃ (hyi : (y - 1).toNat < (swappedMatrix size R).length)
      (hxi : (x - 1).toNat < ((swappedMatrix size R)[(y - 1).toNat]).length),
      genBoard size R (x, y) =
        ((swappedMatrix size R)[(y - 1).toNat])[(x - 1).toNat] := by
  obtain ⟨⟨hlen, hrows⟩, -⟩ := swappedMatrix_latin size R
  have hyi : (y - 1).toNat < (swappedMatrix size R).length := by omega
  have hrperm := hrows _ (List.getElem_mem hyi)
  have hrlen : ((swappedMatrix size R)[(y - 1).toNat]).length = size := by
    rw [hrperm.length_eq, oneTo_length]
  have hxi : (x - 1).toNat < ((swappedMatrix size R)[(y - 1).toNat]).length := by omega
  refine ⟨hyi, hxi, ?_⟩
  show ((swappedMatrix size R).getD (y - 1).toNat []).getD (x - 1).toNat 0 = _
  rw [List.getD_eq_getElem _ _ hyi, List.getD_eq_getElem _ _ hxi]

theorem genBoard_range (size : ℕ) (R : RNG) {x y : ℤ}
    (hx1 : 1 ≤ x) (hx2 : x ≤ (size : ℤ)) (hy1 : 1 ≤ y) (hy2 : y ≤ (size : ℤ)) :
    1 ≤ genBoard size R (x, y) ∧ genBoard size R (x, y) ≤ (size : ℤ) := by
  obtain ⟨⟨hlen, hrows⟩, -⟩ := swappedMatrix_latin size R
  obtain ⟨hyi, hxi, hval⟩ := genBoard_entry size R hx1 hx2 hy1 hy2
  have hrperm := hrows _ (List.getElem_mem hyi)
  have hmem : genBoard size R (x, y) ∈ oneTo size := by
    rw [hval]
    exact hrperm.subset (List.getElem_mem hxi)
  have := (oneTo_mem size _).1 hmem
  omega

theorem genBoard_row_ne (size : ℕ) (R : RNG) {x1 x2 y : ℤ}
    (hx11 : 1 ≤ x1) (hx12 : x1 ≤ (size : ℤ)) (hx21 : 1 ≤ x2) (hx22 : x2 ≤ (size : ℤ))
    (hy1 : 1 ≤ y) (hy2 : y ≤ (size : ℤ)) (hne : x1 ≠ x2) :
    genBoard size R (x1, y) ≠ genBoard size R (x2, y) := by
  obtain ⟨⟨hlen, hrows⟩, -⟩ := swappedMatrix_latin size R
  obtain ⟨hyi, hxi1, hval1⟩ := genBoard_entry size R hx11 hx12 hy1 hy2
  obtain ⟨hyi', hxi2, hval2⟩ := genBoard_entry size R hx21 hx22 hy1 hy2
  rw [hval1, hval2]
  have hrperm := hrows _ (List.getElem_mem hyi)
  have hnd : ((swappedMatrix size R)[(y - 1).toNat]).Nodup :=
    hrperm.nodup_iff.2 (oneTo_nodup size)
  intro heq
  have := (hnd.getElem_inj_iff).1 heq
  omega

theorem genBoard_col_ne (size : ℕ) (R : RNG) {x y1 y2 : ℤ}
    (hx1 : 1 ≤ x) (hx2 : x ≤ (size : ℤ)) (hy11 : 1 ≤ y1) (hy12 : y1 ≤ (size : ℤ))
    (hy21 : 1 ≤ y2) (hy22 : y2 ≤ (size : ℤ)) (hne : y1 ≠ y2) :
    genBoard size R (x, y1) ≠ genBoard size R (x, y2) := by
  obtain ⟨⟨hlen, hrows⟩, hcols⟩ := swappedMatrix_latin size R
  obtain ⟨hyi1, hxi1, hval1⟩ := genBoard_entry size R hx1 hx2 hy11 hy12
  obtain ⟨hyi2, hxi2, hval2⟩ := genBoard_entry size R hx1 hx2 hy21 hy22
  have hxs : (x - 1).toNat < size := by omega
  have hcolperm := hcols (x - 1).toNat hxs
  have hndcol : ((swappedMatrix size R).map fun r => r.getD (x - 1).toNat 0).Nodup :=
    hcolperm.nodup_iff.2 (oneTo_nodup size)
  have hylen : (y1 - 1).toNat < ((swappedMatrix size R).map
      fun r => r.getD (x - 1).toNat 0).length := by
    rw [List.length_map]
    exact hyi1
  have hylen2 : (y2 - 1).toNat < ((swappedMatrix size R).map
      fun r => r.getD (x - 1).toNat 0).length := by
    rw [List.length_map]
    exact hyi2
  have hentry1 : ((swappedMatrix size R).map fun r => r.getD (x - 1).toNat 0)[
      (y1 - 1).toNat] = genBoard size R (x, y1) := by
    rw [List.getElem_map, List.getD_eq_getElem _ _ hxi1, hval1]
  have hentry2 : ((swappedMatrix size R).map fun r => r.getD (x - 1).toNat 0)[
      (y2 - 1).toNat] = genBoard size R (x, y2) := by
    rw [List.getElem_map, List.getD_eq_getElem _ _ hxi2, hval2]
  intro heq
  rw [← hentry1, ← hentry2] at heq
  have := (hndcol.getElem_inj_iff).1 heq
  omega

/-! ### The generated tuple survives both filters -/

theorem tuple_not_conflicting (size : ℕ) (R : RNG) (members : List Cell)
    (hnd : members.Nodup) (hsub : ∀ cell ∈ members, cell ∈ allCells size) :
    conflicting members (members.map (genBoard size R)) members
      (members.map (genBoard size R)) = false := by
  rw [← Bool.not_eq_true, conflicting_eq_true_iff]
  rintro ⟨i, hi, j, hj, hxor, hval⟩
  have hgi : (members.map (genBoard size R)).getD i 0 =
      genBoard size R (members.getD i (0, 0)) := by
    rw [List.getD_eq_getElem _ _ (by simpa using hi), List.getElem_map,
      List.getD_eq_getElem _ _ hi]
  have hgj : (members.map (genBoard size R)).getD j 0 =
      genBoard size R (members.getD j (0, 0)) := by
    rw [List.getD_eq_getElem _ _ (by simpa using hj), List.getElem_map,
      List.getD_eq_getElem _ _ hj]
  rw [hgi, hgj] at hval
  have hcimem : members.getD i (0, 0) ∈ allCells size := by
    refine hsub _ ?_
    rw [List.getD_eq_getElem _ _ hi]
    exact List.getElem_mem hi
  have hcjmem : members.getD j (0, 0) ∈ allCells size := by
    refine hsub _ ?_
    rw [List.getD_eq_getElem _ _ hj]
    exact List.getElem_mem hj
  have hcib : 1 ≤ (members.getD i (0, 0)).1 ∧ (members.getD i (0, 0)).1 ≤ (size : ℤ) ∧
      1 ≤ (members.getD i (0, 0)).2 ∧ (members.getD i (0, 0)).2 ≤ (size : ℤ) := by
    have hmm := hcimem
    rw [← Prod.mk.eta (p := members.getD i (0, 0))] at hmm
    exact (allCells_mem size _ _).1 hmm
  have hcjb : 1 ≤ (members.getD j (0, 0)).1 ∧ (members.getD j (0, 0)).1 ≤ (size : ℤ) ∧
      1 ≤ (members.getD j (0, 0)).2 ∧ (members.getD j (0, 0)).2 ≤ (size : ℤ) := by
    have hmm := hcjmem
    rw [← Prod.mk.eta (p := members.getD j (0, 0))] at hmm
    exact (allCells_mem size _ _).1 hmm
  rw [RowXorCol_iff] at hxor
  rw [← Prod.mk.eta (p := members.getD i (0, 0)),
    ← Prod.mk.eta (p := members.getD j (0, 0))] at hval
  rcases hxor with ⟨hx, hny⟩ | ⟨hy, hnx⟩
  · rw [← hx] at hval
    exact genBoard_col_ne size R hcib.1 hcib.2.1 hcib.2.2.1 hcib.2.2.2
      hcjb.2.2.1 hcjb.2.2.2 hny hval
  · rw [← hy] at hval
    exact genBoard_row_ne size R hcib.1 hcib.2.1 hcjb.1 hcjb.2.1
      hcib.2.2.1 hcib.2.2.2 hnx hval

theorem foldl_den_one (f : Frac → Frac → Frac)
    (hf : ∀ (a : Frac) (v : ℤ), (f a (Frac.ofInt v)).den = a.den)
    (l : List ℤ) (a : Frac) (ha : a.den = 1) :
    (l.foldl (fun acc v => f acc (Frac.ofInt v)) a).den = 1 := by
  induction l generalizing a with
  | nil => exact ha
  | cons x xs ih =>
    simp only [List.foldl_cons]
    refine ih _ ?_
    rw [hf]
    exact ha

theorem eqInt_pyInt_of_den_one (r : Frac) (hden : r.den = 1) :
    Frac.eqInt r (pyInt r) = true := by
  simp [Frac.eqInt, pyInt, hden, Int.tdiv_one]

theorem satisfies_of_self (values : List ℤ) (f : Frac → Frac → Frac) (t : ℤ) (r : Frac)
    (hr : pyReduce (some f) values = some r) (heq : Frac.eqInt r t = true) :
    satisfies values (some f) t = some true := by
  have hne : values.isEmpty = false := by
    cases values with
    | nil => simp [pyReduce] at hr
    | cons a as => rfl
  have hguard : (values.isEmpty || ((some f).isNone && decide (2 ≤ values.length))) = false := by
    rw [hne]
    rfl
  unfold satisfies
  rw [hguard]
  simp only [Bool.false_eq_true, if_false]
  refine congrArg some ?_
  rw [List.any_eq_true]
  refine ⟨values, self_mem_pyPermutations values, ?_⟩
  rw [hr]
  exact heq

theorem classify_op_cases (board : Cell → ℤ) (opc : Bool) (root : Cell)
    (added : List Cell) :
    ((classify board opc root added).2.1 = "." ∧ added = []) ∨
    (classify board opc root added).2.1 ∈ (["+", "-", "*", "/"] : List String) := by
  cases added with
  | nil => exact Or.inl ⟨rfl, rfl⟩
  | cons snd tail =>
    right
    simp only [classify]
    split_ifs <;> simp

theorem classify_satisfies (board : Cell → ℤ) (opc : Bool) (root : Cell)
    (added : List Cell) :
    satisfies ((root :: added).map board)
      (operation (classify board opc root added).2.1)
      (classify board opc root added).2.2 = some true := by
  cases added with
  | nil =>
    show satisfies [board root] (operation ".") (board root) = some true
    rw [satisfies_single]
    simp
  | cons snd tail =>
    by_cases h2 : (root :: snd :: tail : List Cell).length = 2
    · have htail : tail = [] := by
        simp only [List.length_cons] at h2
        exact List.eq_nil_of_length_eq_zero (by omega)
      subst htail
      by_cases hcond : (Frac.isPos (Frac.div (Frac.ofInt (board root))
          (Frac.ofInt (board snd))) = true ∧ board root % board snd = 0)
      · have hop : (classify board opc root [snd]).2.1 = "/" := by
          simp only [classify]
          rw [if_pos h2, if_pos hcond]
        have hopf : operation "/" = some (fun a b => Frac.div a b) := by
          simp [operation]
        have hr : pyReduce (some fun a b => Frac.div a b) ((root :: [snd]).map board) =
            some (Frac.div (Frac.ofInt (board root)) (Frac.ofInt (board snd))) := by
          simp [pyReduce]
        have htg : (classify board opc root [snd]).2.2 =
            pyInt (Frac.div (Frac.ofInt (board root)) (Frac.ofInt (board snd))) := by
          simp only [classify]
          rw [if_pos h2, if_pos hcond, hopf, hr]
        rw [hop, htg, hopf]
        refine satisfies_of_self _ _ _ _ hr ?_
        have hdvd : board snd ∣ board root := Int.dvd_of_emod_eq_zero hcond.2
        simp only [Frac.eqInt, Frac.div, Frac.ofInt, pyInt, mul_one, one_mul, beq_iff_eq]
        rw [Int.tdiv_eq_ediv_of_dvd hdvd, Int.ediv_mul_cancel hdvd]
      · have hop : (classify board opc root [snd]).2.1 = "-" := by
          simp only [classify]
          rw [if_pos h2, if_neg hcond]
        have hopf : operation "-" = some (fun a b => Frac.sub a b) := by
          simp [operation]
        have hr : pyReduce (some fun a b => Frac.sub a b) ((root :: [snd]).map board) =
            some (Frac.sub (Frac.ofInt (board root)) (Frac.ofInt (board snd))) := by
          simp [pyReduce]
        have htg : (classify board opc root [snd]).2.2 =
            pyInt (Frac.sub (Frac.ofInt (board root)) (Frac.ofInt (board snd))) := by
          simp only [classify]
          rw [if_pos h2, if_neg hcond, hopf, hr]
        rw [hop, htg, hopf]
        refine satisfies_of_self _ _ _ _ hr ?_
        refine eqInt_pyInt_of_den_one _ ?_
        simp [Frac.sub, Frac.ofInt]
    · by_cases hopc : opc = true
      · have hop : (classify board opc root (snd :: tail)).2.1 = "+" := by
          simp only [classify]
          rw [if_neg h2, if_pos hopc]
        have hopf : operation "+" = some (fun a b => Frac.add a b) := by
          simp [operation]
        have hr : pyReduce (some fun a b => Frac.add a b)
            ((root :: snd :: tail).map board) =
            some ((board snd :: tail.map board).foldl
              (fun acc v => Frac.add acc (Frac.ofInt v)) (Frac.ofInt (board root))) := by
          simp [pyReduce]
        have htg : (classify board opc root (snd :: tail)).2.2 =
            pyInt ((board snd :: tail.map board).foldl
              (fun acc v => Frac.add acc (Frac.ofInt v)) (Frac.ofInt (board root))) := by
          simp only [classify]
          rw [if_neg h2, if_pos hopc, hopf, hr]
        rw [hop, htg, hopf]
        refine satisfies_of_self _ _ _ _ hr ?_
        refine eqInt_pyInt_of_den_one _ ?_
        refine foldl_den_one _ ?_ _ _ (by simp [Frac.ofInt])
        intro a v
        simp [Frac.add, Frac.ofInt]
      · have hop : (classify board opc root (snd :: tail)).2.1 = "*" := by
          simp only [classify]
          rw [if_neg h2, if_neg hopc]
        have hopf : operation "*" = some (fun a b => Frac.mul a b) := by
          simp [operation]
        have hr : pyReduce (some fun a b => Frac.mul a b)
            ((root :: snd :: tail).map board) =
            some ((board snd :: tail.map board).foldl
              (fun acc v => Frac.mul acc (Frac.ofInt v)) (Frac.ofInt (board root))) := by
          simp [pyReduce]
        have htg : (classify board opc root (snd :: tail)).2.2 =
            pyInt ((board snd :: tail.map board).foldl
              (fun acc v => Frac.mul acc (Frac.ofInt v)) (Frac.ofInt (board root))) := by
          simp only [classify]
          rw [if_neg h2, if_neg hopc, hopf, hr]
        rw [hop, htg, hopf]
        refine satisfies_of_self _ _ _ _ hr ?_
        refine eqInt_pyInt_of_den_one _ ?_
        refine foldl_den_one _ ?_ _ _ (by simp [Frac.ofInt])
        intro a v
        simp [Frac.mul, Frac.ofInt]

theorem carve_shape (board : Cell → ℤ) (R : RNG) :
    ∀ (fuel k : ℕ) (uncaged : List Cell) (c : Clique), c ∈ carve board R fuel k uncaged →
      ∃ (opc : Bool) (root : Cell) (added : List Cell),
        c = classify board opc root added := by
  intro fuel
  induction fuel with
  | zero =>
    intro k uncaged c hc
    simp [carve] at hc
  | succ fuel ih =>
    intro k uncaged c hc
    cases uncaged with
    | nil => simp [carve] at hc
    | cons root rest =>
      simp only [carve, List.mem_cons] at hc
      rcases hc with rfl | hc
      · exact ⟨R.opc k, root, _, rfl⟩
      · exact ih (k + 1) _ c hc

theorem gdomains_some_of (size : ℕ) :
    ∀ (cs : List Clique), (∀ c ∈ cs, ∃ dom, cliqueDomain size c = some dom) →
      ∃ ds, gdomains size cs = some ds := by
  intro cs
  induction cs with
  | nil => exact fun _ => ⟨[], rfl⟩
  | cons c rest ih =>
    intro h
    obtain ⟨dom, hdom⟩ := h c (by simp)
    obtain ⟨ds, hds⟩ := ih fun d hd => h d (by simp [hd])
    exact ⟨(c.1, dom) :: ds, by simp [gdomains, hdom, hds]⟩

/-! ### Claim theorem: domain non-triviality for generator output -/

/-- C5: for every size `N ≥ 1` and every sequence of random choices,
`gdomains` succeeds on the cage list produced by `generate(N)` and every
cage's domain is non-empty: the tuple of the cage members' values in the
generated (still Latin-square) grid itself survives both the
self-consistency filter and the operator/target satisfiability filter,
hence belongs to the computed domain. -/
theorem generate_domains_nonempty (size : ℕ) (hsize : 1 ≤ size) (R : RNG) :
    ∃ ds, gdomains size (generate size R).2 = some ds ∧
      ds.length = (generate size R).2.length ∧
      ∀ i (hi : i < (generate size R).2.length) (hd : i < ds.length),
        (ds.get ⟨i, hd⟩).2 ≠ [] ∧
        ((generate size R).2.get ⟨i, hi⟩).1.map (genBoard size R) ∈ (ds.get ⟨i, hd⟩).2 := by
  have hflat : (allCells size).Perm (((generate size R).2).flatMap fun c => c.1) := by
    have hlen : (allCells size).length ≤ size * size := by rw [allCells_length]
    exact carve_flat_perm (genBoard size R) R (size * size) 0 (allCells size) hlen
  have hnodup : (((generate size R).2).flatMap fun c => c.1).Nodup :=
    hflat.nodup_iff.1 (allCells_nodup size)
  have hparts : ∀ c ∈ (generate size R).2, c.1.Nodup :=
    flatMap_nodup_parts _ _ hnodup
  have hsub : ∀ c ∈ (generate size R).2, ∀ cell ∈ c.1, cell ∈ allCells size := by
    intro c hc cell hcell
    exact hflat.symm.subset (List.mem_flatMap.2 ⟨c, hc, hcell⟩)
  have hkey : ∀ c ∈ (generate size R).2, ∃ dom, cliqueDomain size c = some dom ∧
      c.1.map (genBoard size R) ∈ dom := by
    intro c hc
    obtain ⟨opc, root, added, hceq⟩ :=
      carve_shape (genBoard size R) R (size * size) 0 (allCells size) c hc
    have hmem1 : c.1 ≠ [] := by
      rw [hceq, classify_members]
      simp
    have htuple : c.1.map (genBoard size R) ∈ pyProduct (oneTo size) c.1.length := by
      rw [pyProduct_mem]
      refine ⟨by simp, ?_⟩
      intro v hv
      obtain ⟨cell, hcell, rfl⟩ := List.mem_map.1 hv
      obtain ⟨x, y⟩ := cell
      have hb := (allCells_mem size x y).1 (hsub c hc (x, y) hcell)
      have hrange := genBoard_range size R hb.1 hb.2.1 hb.2.2.1 hb.2.2.2
      rw [oneTo_mem]
      exact ⟨hrange.1, hrange.2⟩
    have hconf : conflicting c.1 (c.1.map (genBoard size R)) c.1
        (c.1.map (genBoard size R)) = false :=
      tuple_not_conflicting size R c.1 (hparts c hc) (hsub c hc)
    have hsat : satisfies (c.1.map (genBoard size R)) (operation c.2.1) c.2.2 =
        some true := by
      rw [hceq, classify_members]
      exact classify_satisfies (genBoard size R) opc root added
    have hqual : qualifies c.1 c.2.1 c.2.2 (c.1.map (genBoard size R)) = some true := by
      unfold qualifies
      rw [hconf]
      simp only [Bool.false_eq_true, if_false]
      exact hsat
    have hone : c.2.1 ∉ (["+", "-", "*", "/"] : List String) → c.1.length = 1 := by
      intro hnot
      rcases classify_op_cases (genBoard size R) opc root added with ⟨hdot, hnil⟩ | hin
      · rw [hceq, classify_members, hnil]
        rfl
      · exfalso
        rw [hceq] at hnot
        exact hnot hin
    obtain ⟨dom, hdom⟩ := cliqueDomain_ne_none size c hmem1 hone
    have hdom' : filterOpt (qualifies c.1 c.2.1 c.2.2)
        (pyProduct (oneTo size) c.1.length) = some dom := hdom
    refine ⟨dom, hdom, ?_⟩
    exact (filterOpt_some hdom' (c.1.map (genBoard size R))).2 ⟨htuple, hqual⟩
  obtain ⟨ds, hds⟩ := gdomains_some_of size (generate size R).2
    fun c hc => (hkey c hc).imp fun dom h => h.1
  obtain ⟨hlen, hget⟩ := gdomains_eq hds
  refine ⟨ds, hds, hlen, ?_⟩
  intro i hi hd
  obtain ⟨dom, hdom, hdsget⟩ := hget i hi hd
  have hcmem : (generate size R).2.get ⟨i, hi⟩ ∈ (generate size R).2 :=
    List.get_mem _ _ hi
  obtain ⟨dom', hdom', hmem'⟩ := hkey _ hcmem
  rw [hdom] at hdom'
  have hde : dom = dom' := Option.some.inj hdom'
  subst hde
  rw [hdsget]
  exact ⟨List.ne_nil_of_mem hmem', hmem'⟩

theorem generate_domains_nonempty_witness :
    (1 : ℕ) ≤ 1 ∧
    ∃ ds, gdomains 1 (generate 1 ⟨fun _ => [], fun _ _ => false, fun _ => 0,
        fun _ _ => 0, fun _ => false⟩).2 = some ds ∧
      ds.length = (generate 1 ⟨fun _ => [], fun _ _ => false, fun _ => 0,
        fun _ _ => 0, fun _ => false⟩).2.length ∧
      ∀ i (hi : i < (generate 1 ⟨fun _ => [], fun _ _ => false, fun _ => 0,
          fun _ _ => 0, fun _ => false⟩).2.length) (hd : i < ds.length),
        (ds.get ⟨i, hd⟩).2 ≠ [] ∧
        ((generate 1 ⟨fun _ => [], fun _ _ => false, fun _ => 0,
          fun _ _ => 0, fun _ => false⟩).2.get ⟨i, hi⟩).1.map
            (genBoard 1 ⟨fun _ => [], fun _ _ => false, fun _ => 0,
              fun _ _ => 0, fun _ => false⟩) ∈ (ds.get ⟨i, hd⟩).2 :=
  ⟨le_rfl, generate_domains_nonempty 1 le_rfl _⟩
